import Mathlib

/-!
# Verification of the lyrio judge's scoring, checking and archive handling

A shallow embedding, in Lean 4, of the pure logic of the `lyrio-dev/judge`
worker: the testlib-style checker-message parser, the truncation helpers,
the interactive-testcase result classification, the submit-answer archive
handling, the subtask scoring engine (`runCommonTask`) and the topological
ordering of subtasks by their dependencies.

JavaScript numbers are embedded as rationals (`ℚ`) with `Math.round`
modelled explicitly (`jsRound`); strings are embedded as `List Char`, a
character standing for one byte of the original; fallible code returns
`Except String` mirroring the thrown `Error` messages.
-/

namespace Judge

/-- JavaScript `Math.round`: round half away from zero towards +∞,
i.e. `⌊x + 1/2⌋`. -/
def jsRound (x : ℚ) : ℤ := ⌊x + 1 / 2⌋

/-- Numeric value of a decimal digit string, as JavaScript `parseInt`
computes it on a match of `\d+` (the embedded callers only compare the
value against small bounds, where `parseInt` is exact). -/
def digitsVal (ds : List Char) : ℕ := ds.foldl (fun a c => a * 10 + (c.toNat - 48)) 0

/-! ## The testlib checker-message parser (`checkers/index.ts`, `parseTestlibMessage`)

Embedded from the plain-string version of the file (the one whose
`CheckerResult` carries a mandatory numeric `score`).  The regular
expression `/^points (\d+)/` is embedded as: the literal prefix
`"points "` followed by a maximal nonempty run of decimal digits; the
expression `/^partially correct \((\d+)\)/` likewise, with a closing
parenthesis required right after the digits. -/

/-- `CheckerResult` of `checkers/index.ts`: a parsed score in `[0, 100]`
plus the message the checker printed. -/
structure CheckerResult where
  score : ℕ
  checkerMessage : List Char
  deriving DecidableEq, Repr

/-- The match of `/^points (\d+)/`: `some digits` when the message starts
with `"points "` followed by at least one digit, `none` otherwise. -/
def matchPointsDigits (m : List Char) : Option (List Char) :=
  if "points ".data <+: m then
    let ds := (m.drop 7).takeWhile Char.isDigit
    if ds = [] then none else some ds
  else none

/-- The match of `/^partially correct \((\d+)\)/`: `some digits` when the
message starts with `"partially correct ("`, at least one digit and a
closing parenthesis right after the digits. -/
def matchPartiallyCorrectDigits (m : List Char) : Option (List Char) :=
  if "partially correct (".data <+: m then
    let rest := m.drop 19
    let ds := rest.takeWhile Char.isDigit
    if ds = [] then none
    else if (rest.drop ds.length).head? = some ')' then some ds else none
  else none

/-- `parseTestlibMessage` of `checkers/index.ts`.  `Sum.inl` is a parsed
`CheckerResult`; `Sum.inr` is the returned error string, which the callers
turn into a `JudgementFailed` status carrying that string. -/
def parseTestlibMessage (message : List Char) : CheckerResult ⊕ List Char :=
  let friendlyMessage := if message = [] then "(empty)".data else message
  if "ok".data <+: message then
    .inl ⟨100, message⟩
  else if "wrong answer".data <+: message ∨ "wrong output format".data <+: message then
    .inl ⟨0, message⟩
  else if "points".data <+: message then
    match matchPointsDigits message with
    | none => .inr ("Couldn't parse testlib's message: ".data ++ friendlyMessage)
    | some ds =>
      let score := digitsVal ds
      if ¬ score ≤ 100 then
        .inr ("Got invalid score ".data ++ ds ++ " from testlib's message: ".data ++ friendlyMessage)
      else
        .inl ⟨score, message⟩
  else if "partially correct".data <+: message then
    match matchPartiallyCorrectDigits message with
    | none => .inr ("Couldn't parse testlib's message: ".data ++ friendlyMessage)
    | some ds =>
      let score := digitsVal ds
      if ¬ score ≤ 200 then
        .inr ("Got invalid score ".data ++ ds ++ " from testlib's message: ".data ++ friendlyMessage)
      else
        .inl ⟨score / 2, message⟩
  else if "FAIL".data <+: message then
    .inr message
  else
    .inr ("Couldn't parse testlib's message: ".data ++ friendlyMessage)

example : parseTestlibMessage "ok you got it".data = .inl ⟨100, "ok you got it".data⟩ := by decide
example : parseTestlibMessage "wrong answer x".data = .inl ⟨0, "wrong answer x".data⟩ := by decide
example : parseTestlibMessage "points 73".data = .inl ⟨73, "points 73".data⟩ := by decide
example : parseTestlibMessage "partially correct (150)".data
    = .inl ⟨75, "partially correct (150)".data⟩ := by decide
example : parseTestlibMessage "FAIL oops".data = .inr "FAIL oops".data := by decide
example : parseTestlibMessage "gibberish".data
    = .inr "Couldn't parse testlib's message: gibberish".data := by decide

/-- `takeWhile` eats exactly a block whose elements all satisfy `p` when the
first element after the block (if any) does not. -/
theorem takeWhile_append_eq_left {p : Char → Bool} {ds rest : List Char}
    (h : ∀ c ∈ ds, p c) (h2 : ∀ c, rest.head? = some c → p c = false) :
    (ds ++ rest).takeWhile p = ds := by
  induction ds with
  | nil =>
    cases rest with
    | nil => simp
    | cons a l => simp [List.takeWhile_cons, h2 a rfl]
  | cons a l ih =>
    simp only [List.cons_append, List.takeWhile_cons]
    rw [h a (by simp)]
    simp [ih (fun c hc => h c (by simp [hc]))]

/-- **C2.** The competitive-programming message parser: `ok…` scores 100;
`wrong answer…`/`wrong output format…` score 0; `points N` (maximal digit
run `N`) scores `N` when `N ≤ 100`; `partially correct (N)` scores
`⌊N / 2⌋` when `N ≤ 200`; `FAIL…` is judgement-failed carrying the message
itself; any other message is judgement-failed with a
`Couldn't parse testlib's message: ` prefix.  Amended from the claim: an
out-of-range `N` yields a judgement-failed message with a
`Got invalid score N` prefix, not the `Couldn't parse` prefix. -/
theorem parseTestlibMessage_classifies :
    (∀ m : List Char, "ok".data <+: m → parseTestlibMessage m = .inl ⟨100, m⟩) ∧
    (∀ m : List Char, ("wrong answer".data <+: m ∨ "wrong output format".data <+: m) →
      parseTestlibMessage m = .inl ⟨0, m⟩) ∧
    (∀ ds rest : List Char, ds ≠ [] → (∀ c ∈ ds, c.isDigit) →
      (∀ c, rest.head? = some c → c.isDigit = false) →
      (digitsVal ds ≤ 100 →
        parseTestlibMessage ("points ".data ++ (ds ++ rest))
          = .inl ⟨digitsVal ds, "points ".data ++ (ds ++ rest)⟩) ∧
      (100 < digitsVal ds →
        parseTestlibMessage ("points ".data ++ (ds ++ rest))
          = .inr ("Got invalid score ".data ++ ds ++ " from testlib's message: ".data ++
              ("points ".data ++ (ds ++ rest))))) ∧
    (∀ ds rest : List Char, ds ≠ [] → (∀ c ∈ ds, c.isDigit) →
      (digitsVal ds ≤ 200 →
        parseTestlibMessage ("partially correct (".data ++ (ds ++ ')' :: rest))
          = .inl ⟨digitsVal ds / 2, "partially correct (".data ++ (ds ++ ')' :: rest)⟩) ∧
      (200 < digitsVal ds →
        parseTestlibMessage ("partially correct (".data ++ (ds ++ ')' :: rest))
          = .inr ("Got invalid score ".data ++ ds ++ " from testlib's message: ".data ++
              ("partially correct (".data ++ (ds ++ ')' :: rest))))) ∧
    (∀ m : List Char, "FAIL".data <+: m → parseTestlibMessage m = .inr m) ∧
    (∀ m : List Char, ¬ "ok".data <+: m → ¬ "wrong answer".data <+: m →
      ¬ "wrong output format".data <+: m → ¬ "points".data <+: m →
      ¬ "partially correct".data <+: m → ¬ "FAIL".data <+: m →
      parseTestlibMessage m
        = .inr ("Couldn't parse testlib's message: ".data ++
            (if m = [] then "(empty)".data else m))) := by
  refine ⟨?_, ?_, ?_, ?_, ?_, ?_⟩
  · intro m h
    simp only [parseTestlibMessage, if_pos h]
  · rintro m (⟨t, rfl⟩ | ⟨t, rfl⟩)
    · have hok : ¬ "ok".data <+: "wrong answer".data ++ t := by simp [List.cons_prefix_cons]
      simp only [parseTestlibMessage, if_neg hok]
      simp [List.prefix_append]
    · have hok : ¬ "ok".data <+: "wrong output format".data ++ t := by
        simp [List.cons_prefix_cons]
      simp only [parseTestlibMessage, if_neg hok]
      simp [List.prefix_append]
  · intro ds rest hne hdig hrest
    have hok : ¬ "ok".data <+: "points ".data ++ (ds ++ rest) := by
      simp [List.cons_prefix_cons]
    have hwa : ¬ "wrong answer".data <+: "points ".data ++ (ds ++ rest) := by
      simp [List.cons_prefix_cons]
    have hwf : ¬ "wrong output format".data <+: "points ".data ++ (ds ++ rest) := by
      simp [List.cons_prefix_cons]
    have hpts : "points".data <+: "points ".data ++ (ds ++ rest) := ⟨' ' :: (ds ++ rest), rfl⟩
    have hmatch : matchPointsDigits ("points ".data ++ (ds ++ rest)) = some ds := by
      unfold matchPointsDigits
      rw [if_pos ⟨ds ++ rest, rfl⟩]
      rw [show (7 : ℕ) = "points ".data.length from rfl, List.drop_left,
        takeWhile_append_eq_left hdig hrest, if_neg hne]
    constructor
    · intro hle
      simp only [parseTestlibMessage, if_neg hok, if_neg (not_or.mpr ⟨hwa, hwf⟩), if_pos hpts,
        hmatch]
      rw [if_neg (by simpa using hle)]
    · intro hgt
      simp only [parseTestlibMessage, if_neg hok, if_neg (not_or.mpr ⟨hwa, hwf⟩), if_pos hpts,
        hmatch]
      rw [if_pos (by simpa using hgt), if_neg (by simp)]
  · intro ds rest hne hdig
    have hok : ¬ "ok".data <+: "partially correct (".data ++ (ds ++ ')' :: rest) := by
      simp [List.cons_prefix_cons]
    have hwa : ¬ "wrong answer".data <+: "partially correct (".data ++ (ds ++ ')' :: rest) := by
      simp [List.cons_prefix_cons]
    have hwf : ¬ "wrong output format".data <+:
        "partially correct (".data ++ (ds ++ ')' :: rest) := by
      simp [List.cons_prefix_cons]
    have hpts : ¬ "points".data <+: "partially correct (".data ++ (ds ++ ')' :: rest) := by
      simp [List.cons_prefix_cons]
    have hpc : "partially correct".data <+: "partially correct (".data ++ (ds ++ ')' :: rest) :=
      ⟨' ' :: '(' :: (ds ++ ')' :: rest), rfl⟩
    have htw : (ds ++ ')' :: rest).takeWhile Char.isDigit = ds :=
      takeWhile_append_eq_left hdig (fun c hc => by
        simp only [List.head?_cons, Option.some.injEq] at hc
        subst hc
        decide)
    have hmatch : matchPartiallyCorrectDigits ("partially correct (".data ++ (ds ++ ')' :: rest))
        = some ds := by
      unfold matchPartiallyCorrectDigits
      rw [if_pos ⟨ds ++ ')' :: rest, rfl⟩]
      simp only [show (19 : ℕ) = "partially correct (".data.length from rfl, List.drop_left,
        htw, if_neg hne, List.head?_cons, if_pos rfl]
      simp
    constructor
    · intro hle
      simp only [parseTestlibMessage, if_neg hok, if_neg (not_or.mpr ⟨hwa, hwf⟩), if_neg hpts,
        if_pos hpc, hmatch]
      rw [if_neg (by simpa using hle)]
    · intro hgt
      simp only [parseTestlibMessage, if_neg hok, if_neg (not_or.mpr ⟨hwa, hwf⟩), if_neg hpts,
        if_pos hpc, hmatch]
      rw [if_pos (by simpa using hgt), if_neg (by simp)]
  · rintro m ⟨t, rfl⟩
    have hok : ¬ "ok".data <+: "FAIL".data ++ t := by simp [List.cons_prefix_cons]
    have hwa : ¬ "wrong answer".data <+: "FAIL".data ++ t := by simp [List.cons_prefix_cons]
    have hwf : ¬ "wrong output format".data <+: "FAIL".data ++ t := by
      simp [List.cons_prefix_cons]
    have hpts : ¬ "points".data <+: "FAIL".data ++ t := by simp [List.cons_prefix_cons]
    have hpc : ¬ "partially correct".data <+: "FAIL".data ++ t := by
      simp [List.cons_prefix_cons]
    simp only [parseTestlibMessage, if_neg hok, if_neg (not_or.mpr ⟨hwa, hwf⟩), if_neg hpts,
      if_neg hpc]
    simp [List.prefix_append]
  · intro m hok hwa hwf hpts hpc hfail
    simp only [parseTestlibMessage, if_neg hok, if_neg (not_or.mpr ⟨hwa, hwf⟩), if_neg hpts,
      if_neg hpc, if_neg hfail]

/-- Witness for C2: the theorem applied at the spec's own example
`partially correct (150)`, which must halve to 75. -/
theorem parseTestlibMessage_classifies_witness :
    parseTestlibMessage ("partially correct (".data ++ ("150".data ++ ')' :: []))
      = .inl ⟨75, "partially correct (".data ++ ("150".data ++ ')' :: [])⟩ :=
  (parseTestlibMessage_classifies.2.2.2.1 "150".data [] (by decide) (by decide)).1 (by decide)

/-- Counterexample for C2 as frozen: on `points 101` (an out-of-range `N`)
the parser returns a judgement-failed message that does *not* carry the
`Couldn't parse` prefix, but a `Got invalid score` prefix. -/
theorem parseTestlibMessage_out_of_range_prefix :
    parseTestlibMessage "points 101".data
      = .inr "Got invalid score 101 from testlib's message: points 101".data ∧
    ∀ rest : List Char,
      parseTestlibMessage "points 101".data
        ≠ .inr ("Couldn't parse".data ++ rest) := by
  constructor
  · decide
  · intro rest h
    rw [show parseTestlibMessage "points 101".data
        = .inr "Got invalid score 101 from testlib's message: points 101".data from by decide] at h
    have h2 := Sum.inr.inj h
    have h3 := congrArg (List.take 14) h2
    rw [show (14 : ℕ) = "Couldn't parse".data.length from rfl, List.take_left] at h3
    revert h3
    decide

/-! ## Omittable strings (`omittableString.ts`) and the `OmittableString`
variant of the parser, used by the interaction runner. -/

/-- `OmittableString` of `omittableString.ts`: a plain string, or a
truncated string together with the number of omitted bytes. -/
inductive OmittableString where
  | plain (data : List Char)
  | withOmitted (data : List Char) (omittedLength : ℕ)
  deriving DecidableEq, Repr

/-- `omittableStringToString`: the (possibly truncated) text itself. -/
def omittableStringToString : OmittableString → List Char
  | .plain s => s
  | .withOmitted s _ => s

/-- `prependOmittableString` with `trim = false` (the parser's only use). -/
def prependOmittableString (str : List Char) : OmittableString → OmittableString
  | .plain s => .plain (str ++ s)
  | .withOmitted s n => .withOmitted (str ++ s) n

/-- `CheckerResult` of the `OmittableString` era of `checkers/index.ts`:
`score = none` means `JudgementFailed`. -/
structure CheckerResultO where
  score : Option ℕ
  checkerMessage : Option OmittableString
  deriving DecidableEq, Repr

/-- `parseTestlibMessage`, `OmittableString` era: prefix tests run on the
truncated text; `FAIL` yields a `CheckerResult` with no score. -/
def parseTestlibMessageO (message : OmittableString) : CheckerResultO ⊕ OmittableString :=
  let friendlyMessage := if message = .plain [] then .plain "(empty)".data else message
  let messagePlain := omittableStringToString message
  if "ok".data <+: messagePlain then
    .inl ⟨some 100, some message⟩
  else if "wrong answer".data <+: messagePlain ∨ "wrong output format".data <+: messagePlain then
    .inl ⟨some 0, some message⟩
  else if "points".data <+: messagePlain then
    match matchPointsDigits messagePlain with
    | none => .inr (prependOmittableString "Couldn't parse testlib's message: ".data friendlyMessage)
    | some ds =>
      let score := digitsVal ds
      if ¬ score ≤ 100 then
        .inr (prependOmittableString
          ("Got invalid score ".data ++ ds ++ " from testlib's message: ".data) friendlyMessage)
      else
        .inl ⟨some score, some message⟩
  else if "partially correct".data <+: messagePlain then
    match matchPartiallyCorrectDigits messagePlain with
    | none => .inr (prependOmittableString "Couldn't parse testlib's message: ".data friendlyMessage)
    | some ds =>
      let score := digitsVal ds
      if ¬ score ≤ 200 then
        .inr (prependOmittableString
          ("Got invalid score ".data ++ ds ++ " from testlib's message: ".data) friendlyMessage)
      else
        .inl ⟨some (score / 2), some message⟩
  else if "FAIL".data <+: messagePlain then
    .inl ⟨none, some message⟩
  else
    .inr (prependOmittableString "Couldn't parse testlib's message: ".data friendlyMessage)

/-! ## Sandbox statuses and per-runner testcase statuses -/

/-- `SandboxStatus` of the `simple-sandbox` dependency, as enumerated in
the spec's sandbox-invoker contract. -/
inductive SandboxStatus where
  | OK
  | TimeLimitExceeded
  | MemoryLimitExceeded
  | OutputLimitExceeded
  | RuntimeError
  | Cancelled
  | Unknown
  deriving DecidableEq, Repr

/-- `SandboxStatus[s]`: the enum member's name, as JavaScript renders it
inside template strings. -/
def sandboxStatusName : SandboxStatus → List Char
  | .OK => "OK".data
  | .TimeLimitExceeded => "TimeLimitExceeded".data
  | .MemoryLimitExceeded => "MemoryLimitExceeded".data
  | .OutputLimitExceeded => "OutputLimitExceeded".data
  | .RuntimeError => "RuntimeError".data
  | .Cancelled => "Cancelled".data
  | .Unknown => "Unknown".data

/-- `TestcaseStatusTraditional` of `traditional/index.ts`. -/
inductive TestcaseStatusTraditional where
  | FileError
  | RuntimeError
  | TimeLimitExceeded
  | MemoryLimitExceeded
  | OutputLimitExceeded
  | PartiallyCorrect
  | WrongAnswer
  | Accepted
  | JudgementFailed
  deriving DecidableEq, Repr

/-- `TestcaseStatusSubmitAnswer` of `submit-answer/index.ts`. -/
inductive TestcaseStatusSubmitAnswer where
  | FileError
  | OutputLimitExceeded
  | PartiallyCorrect
  | WrongAnswer
  | Accepted
  | JudgementFailed
  deriving DecidableEq, Repr

/-- `TestcaseStatusInteraction` of `interaction/index.ts`. -/
inductive TestcaseStatusInteraction where
  | RuntimeError
  | TimeLimitExceeded
  | MemoryLimitExceeded
  | OutputLimitExceeded
  | PartiallyCorrect
  | WrongAnswer
  | Accepted
  | JudgementFailed
  deriving DecidableEq, Repr

/-! ## The score-to-status tail shared (textually) by the three runners

Each `runTestcase` ends with the same block: a checker (or interactor)
result that is a string is a judgement failure; a missing score is a
judgement failure; otherwise `result.score = checkerResult.score || 0` and,
when no failure status was assigned, the status is derived from the score
alone.  The block runs only when `result.status` was still `null`, which is
the hypothesis under which these functions embed it. -/

/-- Lines 219–238 of `traditional/index.ts` (`runTestcase`): the checker
result is either a score (possibly absent) plus a message, or an error
string. -/
def runCheckerPhaseTraditional (cr : (Option ℕ × Option (List Char)) ⊕ List Char) :
    TestcaseStatusTraditional × ℕ :=
  match cr with
  | .inr _ => (.JudgementFailed, 0)
  | .inl (score?, _) =>
    let score := score?.getD 0
    if score?.isNone then (.JudgementFailed, score)
    else if score = 100 then (.Accepted, score)
    else if score = 0 then (.WrongAnswer, score)
    else (.PartiallyCorrect, score)

/-- Lines 145–164 of `submit-answer/index.ts` (`runTestcase`): same block
with the submit-answer status enum. -/
def runCheckerPhaseSubmitAnswer (cr : (Option ℕ × Option (List Char)) ⊕ List Char) :
    TestcaseStatusSubmitAnswer × ℕ :=
  match cr with
  | .inr _ => (.JudgementFailed, 0)
  | .inl (score?, _) =>
    let score := score?.getD 0
    if score?.isNone then (.JudgementFailed, score)
    else if score = 100 then (.Accepted, score)
    else if score = 0 then (.WrongAnswer, score)
    else (.PartiallyCorrect, score)

/-- The fields of `TestcaseResultInteraction` that the classification at
lines 528–583 of `interaction/index.ts` assigns. -/
structure InteractionOutcome where
  status : TestcaseStatusInteraction
  score : ℕ
  systemMessage : Option OmittableString := none
  interactorMessage : Option OmittableString := none
  deriving DecidableEq, Repr

/-- Lines 562–583 of `interaction/index.ts`: the tail of `runTestcase`
mapping a parsed interactor message to the testcase outcome. -/
def interactionInteractorOutcome (r : CheckerResultO ⊕ OmittableString) : InteractionOutcome :=
  match r with
  | .inr s => ⟨.JudgementFailed, 0, some s, none⟩
  | .inl cr =>
    let score := cr.score.getD 0
    if cr.score.isNone then ⟨.JudgementFailed, score, none, cr.checkerMessage⟩
    else if score = 100 then ⟨.Accepted, score, none, cr.checkerMessage⟩
    else if score = 0 then ⟨.WrongAnswer, score, none, cr.checkerMessage⟩
    else ⟨.PartiallyCorrect, score, none, cr.checkerMessage⟩

/-- Lines 528–583 of `interaction/index.ts`: after both sandboxes stopped,
classify the testcase from the two sandbox results, the user's exit code
and the interactor's captured stderr.  `Except.error` embeds the thrown
`Corrupt sandbox result` error. -/
def classifyInteraction (userStatus : SandboxStatus) (userCode : ℤ)
    (interactorStatus : SandboxStatus) (interactorMessage : OmittableString) :
    Except (List Char) InteractionOutcome :=
  if userStatus = .TimeLimitExceeded ∨ interactorStatus = .TimeLimitExceeded then
    .ok ⟨.TimeLimitExceeded, 0, none, none⟩
  else if interactorStatus ≠ .OK then
    .ok ⟨.JudgementFailed, 0,
      some (.plain ("Interactor encountered a ".data ++ sandboxStatusName interactorStatus)),
      some interactorMessage⟩
  else if userStatus = .OutputLimitExceeded then
    .ok ⟨.OutputLimitExceeded, 0, none, none⟩
  else if userStatus = .MemoryLimitExceeded then
    .ok ⟨.MemoryLimitExceeded, 0, none, none⟩
  else if userStatus = .RuntimeError then
    .ok ⟨.RuntimeError, 0, some (.plain ("Exit code: ".data ++ (toString userCode).data)), none⟩
  else if userStatus = .Unknown then
    .error "Corrupt sandbox result".data
  else
    .ok (interactionInteractorOutcome (parseTestlibMessageO interactorMessage))

/-- The interaction tail keeps a present score unchanged. -/
theorem interactionInteractorOutcome_inl_score (s : ℕ) (cm : Option OmittableString) :
    (interactionInteractorOutcome (.inl ⟨some s, cm⟩)).score = s := by
  by_cases h100 : s = 100 <;> by_cases h0 : s = 0 <;>
    simp [interactionInteractorOutcome, h100, h0]

/-- **C10.** In all three runners, when the checker (or interactor) yields
a numeric score and no earlier failure status was assigned, the testcase
status is derived solely from the score: `Accepted` iff the score is 100,
`WrongAnswer` iff it is 0, `PartiallyCorrect` for every score strictly
between. -/
theorem checker_score_determines_status :
    ∀ (s : ℕ) (m : Option (List Char)) (mo : Option OmittableString),
      ((runCheckerPhaseTraditional (.inl (some s, m))).2 = s ∧
        ((runCheckerPhaseTraditional (.inl (some s, m))).1 = .Accepted ↔ s = 100) ∧
        ((runCheckerPhaseTraditional (.inl (some s, m))).1 = .WrongAnswer ↔ s = 0) ∧
        (0 < s → s < 100 →
          (runCheckerPhaseTraditional (.inl (some s, m))).1 = .PartiallyCorrect)) ∧
      ((runCheckerPhaseSubmitAnswer (.inl (some s, m))).2 = s ∧
        ((runCheckerPhaseSubmitAnswer (.inl (some s, m))).1 = .Accepted ↔ s = 100) ∧
        ((runCheckerPhaseSubmitAnswer (.inl (some s, m))).1 = .WrongAnswer ↔ s = 0) ∧
        (0 < s → s < 100 →
          (runCheckerPhaseSubmitAnswer (.inl (some s, m))).1 = .PartiallyCorrect)) ∧
      ((interactionInteractorOutcome (.inl ⟨some s, mo⟩)).score = s ∧
        ((interactionInteractorOutcome (.inl ⟨some s, mo⟩)).status = .Accepted ↔ s = 100) ∧
        ((interactionInteractorOutcome (.inl ⟨some s, mo⟩)).status = .WrongAnswer ↔ s = 0) ∧
        (0 < s → s < 100 →
          (interactionInteractorOutcome (.inl ⟨some s, mo⟩)).status = .PartiallyCorrect)) := by
  intro s m mo
  by_cases h100 : s = 100 <;> by_cases h0 : s = 0 <;>
    simp_all [runCheckerPhaseTraditional, runCheckerPhaseSubmitAnswer,
      interactionInteractorOutcome]

/-- Witness for C10 at the spec's interactive partial-credit example:
score 60 is `PartiallyCorrect` in all three runners. -/
theorem checker_score_determines_status_witness :
    (runCheckerPhaseTraditional (.inl (some 60, none))).1 = .PartiallyCorrect ∧
    (runCheckerPhaseSubmitAnswer (.inl (some 60, none))).1 = .PartiallyCorrect ∧
    (interactionInteractorOutcome (.inl ⟨some 60, none⟩)).status = .PartiallyCorrect :=
  ⟨(checker_score_determines_status 60 none none).1.2.2.2 (by decide) (by decide),
   (checker_score_determines_status 60 none none).2.1.2.2.2 (by decide) (by decide),
   (checker_score_determines_status 60 none none).2.2.2.2.2 (by decide) (by decide)⟩

/-- **C6.** Classification of an interactive testcase after both sandboxes
stop: a time-limit on either side dominates; then a non-OK interactor is a
judgement failure carrying the interactor's status and message; then the
user's output/memory/runtime statuses map to their own statuses; an
`Unknown` user status raises an error; otherwise the interactor's stderr is
parsed with the competitive-programming message parser, whose score the
outcome carries. -/
theorem classifyInteraction_spec :
    ∀ (us : SandboxStatus) (uc : ℤ) (is : SandboxStatus) (msg : OmittableString),
      ((us = .TimeLimitExceeded ∨ is = .TimeLimitExceeded) →
        classifyInteraction us uc is msg = .ok ⟨.TimeLimitExceeded, 0, none, none⟩) ∧
      (us ≠ .TimeLimitExceeded → is ≠ .TimeLimitExceeded → is ≠ .OK →
        classifyInteraction us uc is msg = .ok ⟨.JudgementFailed, 0,
          some (.plain ("Interactor encountered a ".data ++ sandboxStatusName is)),
          some msg⟩) ∧
      (is = .OK → us = .OutputLimitExceeded →
        classifyInteraction us uc is msg = .ok ⟨.OutputLimitExceeded, 0, none, none⟩) ∧
      (is = .OK → us = .MemoryLimitExceeded →
        classifyInteraction us uc is msg = .ok ⟨.MemoryLimitExceeded, 0, none, none⟩) ∧
      (is = .OK → us = .RuntimeError →
        classifyInteraction us uc is msg = .ok ⟨.RuntimeError, 0,
          some (.plain ("Exit code: ".data ++ (toString uc).data)), none⟩) ∧
      (is = .OK → us = .Unknown →
        classifyInteraction us uc is msg = .error "Corrupt sandbox result".data) ∧
      (is = .OK → us = .OK →
        classifyInteraction us uc is msg
          = .ok (interactionInteractorOutcome (parseTestlibMessageO msg)) ∧
        ∀ s cm, parseTestlibMessageO msg = .inl ⟨some s, cm⟩ →
          ∃ o, classifyInteraction us uc is msg = .ok o ∧ o.score = s) := by
  intro us uc is msg
  refine ⟨?_, ?_, ?_, ?_, ?_, ?_, ?_⟩
  · rintro (rfl | rfl)
    · simp [classifyInteraction]
    · cases us <;> simp [classifyInteraction]
  · intro hus his hisok
    cases is <;> cases us <;> simp_all [classifyInteraction]
  · rintro rfl rfl; simp [classifyInteraction]
  · rintro rfl rfl; simp [classifyInteraction]
  · rintro rfl rfl; simp [classifyInteraction]
  · rintro rfl rfl; simp [classifyInteraction]
  · rintro rfl rfl
    refine ⟨by simp [classifyInteraction], ?_⟩
    intro s cm hparse
    exact ⟨interactionInteractorOutcome (parseTestlibMessageO msg),
      by simp [classifyInteraction],
      by rw [hparse]; exact interactionInteractorOutcome_inl_score s cm⟩

/-- Witness for C6: a user time-limit-exceeded result dominates the
classification. -/
theorem classifyInteraction_spec_witness :
    classifyInteraction .TimeLimitExceeded 0 .OK (.plain [])
      = .ok ⟨.TimeLimitExceeded, 0, none, none⟩ :=
  (classifyInteraction_spec .TimeLimitExceeded 0 .OK (.plain [])).1 (Or.inl rfl)

/-! ## Truncation of user-visible strings (`utils.ts`,
`readFileOmitted` / `stringToOmited`)

File and string contents are embedded as `List Char`, one character per
byte of the original. -/

/-- The tag appended on truncation:
`\n<N byte(s) omitted>`, mirroring the template string of `utils.ts`. -/
def omittedTag (n : ℕ) : List Char :=
  "\n<".data ++ (toString n).data ++ " byte".data ++
    (if n ≠ 1 then "s".data else []) ++ " omitted>".data

/-- `stringToOmited` of `utils.ts`: clip to the limit and tag the number
of omitted bytes. -/
def stringToOmited (str : List Char) (lengthLimit : ℕ) : List Char :=
  if str.length ≤ lengthLimit then str
  else str.take lengthLimit ++ omittedTag (str.length - lengthLimit)

/-- `readFileOmitted` of `utils.ts` on its success path: the file holds
`content`; the function reads the first `min (content.length) lengthLimit`
bytes and tags the remainder when bytes were left unread. -/
def readFileOmitted (content : List Char) (lengthLimit : ℕ) : List Char :=
  let bytesRead := min content.length lengthLimit
  let ret := content.take bytesRead
  if bytesRead < content.length then ret ++ omittedTag (content.length - bytesRead)
  else ret

/-- **C9.** Every limited read of a user-visible string preserves the
source when it fits the limit, and otherwise produces exactly the first
`limit` bytes followed by the omitted-byte tag — so the clipped source is a
prefix of the output. -/
theorem truncation_preserves_prefix :
    ∀ (content : List Char) (limit : ℕ),
      (content.length ≤ limit →
        stringToOmited content limit = content ∧ readFileOmitted content limit = content) ∧
      (limit < content.length →
        stringToOmited content limit
          = content.take limit ++ omittedTag (content.length - limit) ∧
        readFileOmitted content limit
          = content.take limit ++ omittedTag (content.length - limit) ∧
        content.take limit <+: stringToOmited content limit ∧
        content.take limit <+: readFileOmitted content limit) := by
  intro content limit
  constructor
  · intro h
    refine ⟨by rw [stringToOmited, if_pos h], ?_⟩
    rw [readFileOmitted]
    simp only [min_eq_left h, List.take_length]
    rw [if_neg (lt_irrefl _)]
  · intro h
    have h1 : stringToOmited content limit
        = content.take limit ++ omittedTag (content.length - limit) := by
      rw [stringToOmited, if_neg (not_le.mpr h)]
    have h2 : readFileOmitted content limit
        = content.take limit ++ omittedTag (content.length - limit) := by
      rw [readFileOmitted]
      simp only [min_eq_right h.le]
      rw [if_pos h]
    exact ⟨h1, h2, h1 ▸ List.prefix_append _ _, h2 ▸ List.prefix_append _ _⟩

/-- Witness for C9: an 11-byte string read under a 5-byte limit keeps its
first 5 bytes and reports 6 omitted bytes. -/
theorem truncation_preserves_prefix_witness :
    stringToOmited "hello world".data 5
      = "hello world".data.take 5 ++ omittedTag ("hello world".data.length - 5) ∧
    readFileOmitted "hello world".data 5
      = "hello world".data.take 5 ++ omittedTag ("hello world".data.length - 5) ∧
    stringToOmited "hello world".data 5 = "hello\n<6 bytes omitted>".data :=
  ⟨(( truncation_preserves_prefix "hello world".data 5).2 (by decide)).1,
   (( truncation_preserves_prefix "hello world".data 5).2 (by decide)).2.1,
   by decide⟩

/-! ## Submit-answer: lazy unzip (`submissionFile.ts`, `SubmissionFile.unzip`)
and the per-testcase archive handling (`submit-answer/index.ts`,
`runTestcase`). -/

/-- A zip entry as the `unzipper` stream exposes it: its path, whether it
is a file (directories are skipped), and the uncompressed size recorded in
the archive headers. -/
structure ZipEntry where
  path : List Char
  isFile : Bool
  uncompressedSize : ℕ
  deriving DecidableEq, Repr

/-- The per-entry outcome recorded in `SubmissionFileUnzipResult.status`:
either extracted successfully or refused for exceeding the output-size
limit. -/
inductive UnzipEntryStatus where
  | success
  | sizeExceededLimit
  deriving DecidableEq, Repr

/-- `SubmissionFile.unzip`: walk the archive entries in order; a wanted
file entry is extracted when its uncompressed size is within the
output-size limit and marked `sizeExceededLimit` otherwise; everything
else is drained and leaves no record.  A later entry with the same path
overwrites the record. -/
def unzipStatus (entries : List ZipEntry) (wantedFiles : List (List Char))
    (outputSizeLimit : ℕ) : List Char → Option UnzipEntryStatus :=
  entries.foldl
    (fun st entry =>
      if entry.isFile = true ∧ entry.path ∈ wantedFiles then
        if entry.uncompressedSize ≤ outputSizeLimit then
          fun f => if f = entry.path then some .success else st f
        else
          fun f => if f = entry.path then some .sizeExceededLimit else st f
      else st)
    (fun _ => none)

/-- The fields of a submit-answer testcase the archive handling reads. -/
structure TestcaseConfigSA where
  inputFile : Option (List Char) := none
  outputFile : List Char
  userOutputFilename : Option (List Char) := none
  deriving DecidableEq, Repr

/-- `runTestcase` of `submit-answer/index.ts`, archive part: the wanted
entry is the testcase's `userOutputFilename` or its `outputFile`; a
`sizeExceededLimit` record is `OutputLimitExceeded`, a missing or
unsuccessful record is `FileError`, and only otherwise does the checker
run (the returned flag records whether it did). -/
def runTestcaseSubmitAnswer (status : List Char → Option UnzipEntryStatus)
    (testcase : TestcaseConfigSA)
    (checkerResult : (Option ℕ × Option (List Char)) ⊕ List Char) :
    (TestcaseStatusSubmitAnswer × ℕ) × Bool :=
  let userOutputFilename := testcase.userOutputFilename.getD testcase.outputFile
  match status userOutputFilename with
  | some .sizeExceededLimit => ((.OutputLimitExceeded, 0), false)
  | none => ((.FileError, 0), false)
  | some .success => (runCheckerPhaseSubmitAnswer checkerResult, true)

/-- Walking further entries records (and never erases) an oversize mark at
a wanted path all of whose file entries exceed the limit. -/
theorem unzipStatus_foldl_oversize (wanted : List (List Char)) (limit : ℕ)
    (f : List Char) (hw : f ∈ wanted) :
    ∀ (entries : List ZipEntry) (st : List Char → Option UnzipEntryStatus),
      (∀ e ∈ entries, e.isFile = true → e.path = f → limit < e.uncompressedSize) →
      ((∃ e ∈ entries, e.isFile = true ∧ e.path = f) ∨ st f = some .sizeExceededLimit) →
      (entries.foldl
        (fun st entry =>
          if entry.isFile = true ∧ entry.path ∈ wanted then
            if entry.uncompressedSize ≤ limit then
              fun g => if g = entry.path then some .success else st g
            else
              fun g => if g = entry.path then some .sizeExceededLimit else st g
          else st) st) f = some .sizeExceededLimit := by
  intro entries
  induction entries with
  | nil =>
    intro st _ h
    rcases h with h | h
    · simp at h
    · exact h
  | cons e es ih =>
    intro st hall h
    simp only [List.foldl_cons]
    by_cases hmatch : e.isFile = true ∧ e.path = f
    · refine ih _ (fun x hx => hall x (by simp [hx])) (Or.inr ?_)
      rw [if_pos ⟨hmatch.1, hmatch.2 ▸ hw⟩,
        if_neg (not_le.mpr (hall e (by simp) hmatch.1 hmatch.2))]
      simp [hmatch.2]
    · have hpres : (if e.isFile = true ∧ e.path ∈ wanted then
          if e.uncompressedSize ≤ limit then
            (fun g => if g = e.path then some UnzipEntryStatus.success else st g)
          else
            (fun g => if g = e.path then some UnzipEntryStatus.sizeExceededLimit else st g)
          else st) f = st f := by
        by_cases hcond : e.isFile = true ∧ e.path ∈ wanted
        · have hpath : f ≠ e.path := fun hfe => hmatch ⟨hcond.1, hfe.symm⟩
          rcases le_or_lt e.uncompressedSize limit with hsz | hsz
          · rw [if_pos hcond, if_pos hsz, if_neg hpath]
          · rw [if_pos hcond, if_neg (not_le.mpr hsz), if_neg hpath]
        · rw [if_neg hcond]
      refine ih _ (fun x hx => hall x (by simp [hx])) ?_
      rcases h with ⟨x, hx, h1, h2⟩ | h
      · rcases List.mem_cons.mp hx with rfl | hx2
        · exact absurd ⟨h1, h2⟩ hmatch
        · exact Or.inl ⟨x, hx2, h1, h2⟩
      · exact Or.inr (hpres.trans h)

/-- **C7.** A wanted submit-answer archive entry whose uncompressed size
exceeds the output-size limit is recorded as `sizeExceededLimit` by the
unzip (it is not extracted), and the testcase then ends
`OutputLimitExceeded` with score 0 without the checker ever running — so
no sandbox is invoked for it. -/
theorem submit_answer_oversize_entry :
    ∀ (entries : List ZipEntry) (wanted : List (List Char)) (limit : ℕ)
      (testcase : TestcaseConfigSA)
      (checkerResult : (Option ℕ × Option (List Char)) ⊕ List Char),
      testcase.userOutputFilename.getD testcase.outputFile ∈ wanted →
      (∃ e ∈ entries, e.isFile = true ∧
        e.path = testcase.userOutputFilename.getD testcase.outputFile) →
      (∀ e ∈ entries, e.isFile = true →
        e.path = testcase.userOutputFilename.getD testcase.outputFile →
        limit < e.uncompressedSize) →
      unzipStatus entries wanted limit (testcase.userOutputFilename.getD testcase.outputFile)
        = some .sizeExceededLimit ∧
      runTestcaseSubmitAnswer (unzipStatus entries wanted limit) testcase checkerResult
        = ((.OutputLimitExceeded, 0), false) := by
  intro entries wanted limit testcase checkerResult hw hex hall
  set f := testcase.userOutputFilename.getD testcase.outputFile with hf
  have key : unzipStatus entries wanted limit f = some .sizeExceededLimit :=
    unzipStatus_foldl_oversize wanted limit f hw entries _ hall (Or.inl hex)
  refine ⟨key, ?_⟩
  rw [runTestcaseSubmitAnswer]
  rw [show testcase.userOutputFilename.getD testcase.outputFile = f from rfl, key]

/-- Witness for C7, the spec's own submit-answer scenario: the plan wants
`out1`, the archive's `out1` has size `outputSize + 1`. -/
theorem submit_answer_oversize_entry_witness :
    runTestcaseSubmitAnswer (unzipStatus [⟨"out1".data, true, 101⟩] ["out1".data] 100)
        ⟨none, "out1".data, none⟩ (.inr [])
      = ((.OutputLimitExceeded, 0), false) :=
  (submit_answer_oversize_entry [⟨"out1".data, true, 101⟩] ["out1".data] 100
    ⟨none, "out1".data, none⟩ (.inr []) (by decide) (by decide) (by decide)).2

/-! ## The scoring engine (`task/submission/common.ts`, `runCommonTask`)

Scores are rationals; a testcase run is an oracle `ℕ → TcResult` giving
the result of `onTestcase` for each testcase index (the engine treats
`onTestcase` as an injected dependency). -/

/-- `scoringType` of a subtask. -/
inductive ScoringType where
  | Sum
  | GroupMin
  | GroupMul
  deriving DecidableEq, Repr

/-- The part of a testcase result the scoring engine reads
(`TestcaseResultCommon`): a status string and a score. -/
structure TcResult where
  status : List Char
  score : ℚ
  deriving DecidableEq, Repr

/-- `TestcaseConfigCommon`. -/
structure TestcaseConfigC where
  timeLimit : Option ℚ := none
  memoryLimit : Option ℚ := none
  inputFile : Option (List Char) := none
  outputFile : Option (List Char) := none
  points : Option ℚ := none
  deriving DecidableEq, Repr

/-- A subtask of `JudgeInfoCommon`. -/
structure SubtaskC where
  timeLimit : Option ℚ := none
  memoryLimit : Option ℚ := none
  testcases : List TestcaseConfigC
  scoringType : ScoringType
  points : Option ℚ := none
  dependencies : Option (List ℕ) := none
  deriving DecidableEq, Repr

/-- `JudgeInfoCommon`. -/
structure JudgeInfoC where
  runSamples : Bool := false
  timeLimit : Option ℚ := none
  memoryLimit : Option ℚ := none
  subtasks : List SubtaskC
  deriving DecidableEq, Repr

/-- `sumSpecfiedPercentagePoints…`: the sum of the weights that are
explicitly specified. -/
def sumSpecifiedPoints (ps : List (Option ℚ)) : ℚ := (ps.filterMap id).sum

/-- `countUnspecfiedPercentagePoints…`: how many weights are left
unspecified. -/
def countUnspecifiedPoints (ps : List (Option ℚ)) : ℕ := (ps.filter Option.isNone).length

/-- `defaultPercentagePoints…`: each unspecified weight receives an equal
share of the residual of 100. -/
def defaultPercentagePoints (ps : List (Option ℚ)) : ℚ :=
  (100 - sumSpecifiedPoints ps) / (countUnspecifiedPoints ps : ℚ)

/-- The auto-distribution of weights applied by `runCommonTask` to
subtasks (lines 80–92) and, per subtask, to testcases (lines 191–206). -/
def distributePoints (ps : List (Option ℚ)) : List ℚ :=
  ps.map (fun p => p.getD (defaultPercentagePoints ps))

/-- `subtaskFullScores` of `runCommonTask`. -/
def subtaskFullScores (j : JudgeInfoC) : List ℚ :=
  distributePoints (j.subtasks.map SubtaskC.points)

theorem distributePoints_sum_eq (ps : List (Option ℚ)) :
    (distributePoints ps).sum
      = sumSpecifiedPoints ps
        + (countUnspecifiedPoints ps : ℚ) * defaultPercentagePoints ps := by
  suffices h : ∀ d : ℚ, (ps.map (fun p => p.getD d)).sum
      = sumSpecifiedPoints ps + (countUnspecifiedPoints ps : ℚ) * d from
    h (defaultPercentagePoints ps)
  intro d
  induction ps with
  | nil => simp [sumSpecifiedPoints, countUnspecifiedPoints]
  | cons p ps ih =>
    cases p with
    | none =>
      simp only [List.map_cons, List.sum_cons, Option.getD_none, ih,
        sumSpecifiedPoints, countUnspecifiedPoints, List.filterMap_cons,
        List.filter_cons, Option.isNone_none]
      simp [sumSpecifiedPoints, countUnspecifiedPoints]
      push_cast
      ring
    | some v =>
      simp only [List.map_cons, List.sum_cons, Option.getD_some, ih,
        sumSpecifiedPoints, countUnspecifiedPoints, List.filterMap_cons,
        List.filter_cons]
      simp [sumSpecifiedPoints, countUnspecifiedPoints]
      ring

/-- With at least one unspecified weight, auto-distribution always totals
exactly 100. -/
theorem distributePoints_sum_of_pos (ps : List (Option ℚ))
    (h : 0 < countUnspecifiedPoints ps) : (distributePoints ps).sum = 100 := by
  rw [distributePoints_sum_eq, defaultPercentagePoints]
  have hne : ((countUnspecifiedPoints ps : ℚ)) ≠ 0 := by
    exact_mod_cast h.ne.symm
  field_simp

/-- With every weight specified, auto-distribution returns the specified
weights themselves. -/
theorem distributePoints_sum_of_zero (ps : List (Option ℚ))
    (h : countUnspecifiedPoints ps = 0) :
    (distributePoints ps).sum = sumSpecifiedPoints ps := by
  rw [distributePoints_sum_eq, h]
  simp

/-- **C4.** Auto-distribution keeps weight totals at 100 or below whenever
the specified weights total at most 100 — at both the subtask level and
the per-subtask testcase level — and distributes exactly 100 when every
weight is unspecified (and the list is nonempty). -/
theorem weight_distribution_bounded :
    ∀ j : JudgeInfoC,
      (sumSpecifiedPoints (j.subtasks.map SubtaskC.points) ≤ 100 →
        (subtaskFullScores j).sum ≤ 100) ∧
      (∀ s ∈ j.subtasks,
        sumSpecifiedPoints (s.testcases.map TestcaseConfigC.points) ≤ 100 →
          (distributePoints (s.testcases.map TestcaseConfigC.points)).sum ≤ 100) ∧
      (j.subtasks ≠ [] → (∀ s ∈ j.subtasks, s.points = none) →
        (subtaskFullScores j).sum = 100) ∧
      (∀ s ∈ j.subtasks, s.testcases ≠ [] →
        (∀ t ∈ s.testcases, t.points = none) →
          (distributePoints (s.testcases.map TestcaseConfigC.points)).sum = 100) := by
  have le_of_spec : ∀ ps : List (Option ℚ), sumSpecifiedPoints ps ≤ 100 →
      (distributePoints ps).sum ≤ 100 := by
    intro ps h
    rcases Nat.eq_zero_or_pos (countUnspecifiedPoints ps) with h0 | h0
    · rw [distributePoints_sum_of_zero ps h0]; exact h
    · rw [distributePoints_sum_of_pos ps h0]
  have all_none_100 : ∀ ps : List (Option ℚ), ps ≠ [] → (∀ p ∈ ps, p = none) →
      (distributePoints ps).sum = 100 := by
    intro ps hne hall
    refine distributePoints_sum_of_pos ps ?_
    rw [countUnspecifiedPoints]
    have : ps.filter Option.isNone = ps := by
      apply List.filter_eq_self.mpr
      intro p hp
      rw [hall p hp]
      rfl
    rw [this]
    exact List.length_pos.mpr hne
  intro j
  refine ⟨le_of_spec _, fun s _ => le_of_spec _, ?_, ?_⟩
  · intro hne hall
    refine all_none_100 _ (by simpa using hne) ?_
    intro p hp
    obtain ⟨s, hs, rfl⟩ := List.mem_map.mp hp
    exact hall s hs
  · intro s _ hne hall
    refine all_none_100 _ (by simpa using hne) ?_
    intro p hp
    obtain ⟨t, ht, rfl⟩ := List.mem_map.mp hp
    exact hall t ht

/-- Witness for C4: one subtask with 30 specified points and one
unspecified, three testcases with no specified weights. -/
theorem weight_distribution_bounded_witness :
    (subtaskFullScores ⟨false, none, none,
        [⟨none, none, [⟨none, none, none, none, none⟩], .Sum, some 30, none⟩,
         ⟨none, none, [⟨none, none, none, none, none⟩, ⟨none, none, none, none, none⟩,
            ⟨none, none, none, none, none⟩],
           .Sum, none, none⟩]⟩).sum ≤ 100 ∧
    (subtaskFullScores ⟨false, none, none,
        [⟨none, none, [⟨none, none, none, none, none⟩], .Sum, none, none⟩,
         ⟨none, none, [⟨none, none, none, none, none⟩], .Sum, none, none⟩]⟩).sum = 100 :=
  ⟨(weight_distribution_bounded _).1
      (by norm_num [sumSpecifiedPoints, List.filterMap_cons]),
   (weight_distribution_bounded _).2.2.1 (by simp) (by decide)⟩

/-- The per-testcase score update of the group loop (line 230–231 of
`common.ts`): `GroupMin` takes the minimum, otherwise (`GroupMul`,
the only other type entering the loop) the product of percentages. -/
def groupUpdate (st : ScoringType) (cur score : ℚ) : ℚ :=
  if st = .GroupMin then min cur score else cur * score / 100

/-- The serial loop of `runCommonTask` for a non-`Sum` subtask (lines
222–235): the accumulator starts at 100; a testcase is skipped (event
`none`, `testcaseFinished(null)`) when the accumulated score rounds to 0,
and otherwise runs and updates the accumulator. -/
def runGroupTestcases (st : ScoringType) (count : ℕ) (run : ℕ → TcResult) :
    ℚ × List (Option TcResult) :=
  (List.range count).foldl
    (fun acc i =>
      if jsRound acc.1 = 0 then (acc.1, acc.2 ++ [none])
      else (groupUpdate st acc.1 (run i).score, acc.2 ++ [some (run i)]))
    (100, [])

/-- The subtask score before testcase `j` of a group subtask, defined by
the spec's recurrence. -/
def groupPrefixScore (st : ScoringType) (run : ℕ → TcResult) : ℕ → ℚ
  | 0 => 100
  | j + 1 =>
    let c := groupPrefixScore st run j
    if jsRound c = 0 then c else groupUpdate st c (run j).score

/-- The Sum branch of `runCommonTask` (lines 212–220): every testcase
runs; the subtask score accumulates `score · weight / 100`. -/
def runSumTestcases (pts : List ℚ) (run : ℕ → TcResult) : ℚ × List (Option TcResult) :=
  (List.range pts.length).foldl
    (fun acc i => (acc.1 + (run i).score * pts.getD i 0 / 100, acc.2 ++ [some (run i)]))
    (0, [])

/-- The scoring-mode dispatch of `runCommonTask` (lines 208–236). -/
def runSubtaskTestcases (st : ScoringType) (pts : List ℚ) (run : ℕ → TcResult) :
    ℚ × List (Option TcResult) :=
  match st with
  | .Sum => runSumTestcases pts run
  | _ => runGroupTestcases st pts.length run

/-- The group loop, in closed form: the final accumulator is the prefix
score at `count`, and testcase `j`'s event is `none` exactly when the
prefix score before it rounds to 0. -/
theorem runGroupTestcases_eq (st : ScoringType) (run : ℕ → TcResult) :
    ∀ count : ℕ,
      runGroupTestcases st count run
        = (groupPrefixScore st run count,
           (List.range count).map
             (fun j => if jsRound (groupPrefixScore st run j) = 0 then none
                       else some (run j))) := by
  intro count
  induction count with
  | zero => rfl
  | succ n ih =>
    rw [runGroupTestcases, List.range_succ, List.foldl_append]
    rw [show (List.range n).foldl
        (fun acc i =>
          if jsRound acc.1 = 0 then (acc.1, acc.2 ++ [none])
          else (groupUpdate st acc.1 (run i).score, acc.2 ++ [some (run i)]))
        (100, []) = runGroupTestcases st n run from rfl, ih]
    have hstep : groupPrefixScore st run (n + 1)
        = if jsRound (groupPrefixScore st run n) = 0 then groupPrefixScore st run n
          else groupUpdate st (groupPrefixScore st run n) (run n).score := rfl
    by_cases h : jsRound (groupPrefixScore st run n) = 0
    · simp [h, hstep, List.range_succ]
    · simp [h, hstep, List.range_succ]

/-- Once the prefix score rounds to 0, it stays there. -/
theorem groupPrefixScore_stays_zero (st : ScoringType) (run : ℕ → TcResult)
    {j : ℕ} (h : jsRound (groupPrefixScore st run j) = 0) :
    ∀ k, j ≤ k → jsRound (groupPrefixScore st run k) = 0 := by
  intro k hk
  induction k, hk using Nat.le_induction with
  | base => exact h
  | succ n _ ih =>
    show jsRound (if jsRound (groupPrefixScore st run n) = 0 then groupPrefixScore st run n
      else groupUpdate st (groupPrefixScore st run n) (run n).score) = 0
    rw [if_pos ih]
    exact ih

/-- **C3.** A `GroupMin`/`GroupMul` subtask runs its testcases serially in
declaration order: the score starts at 100; after each run testcase the
score becomes `min(score, testcaseScore)` (`GroupMin`) or
`score·testcaseScore/100` (`GroupMul`); a testcase is skipped (its event
is the `null` sentinel) exactly when the accumulated score rounds to 0,
and from the first skipped testcase on every remaining one is skipped and
never run. -/
theorem group_scoring_spec :
    ∀ st : ScoringType, st = .GroupMin ∨ st = .GroupMul →
    ∀ (pts : List ℚ) (run : ℕ → TcResult),
      runSubtaskTestcases st pts run = runGroupTestcases st pts.length run ∧
      groupPrefixScore st run 0 = 100 ∧
      (runGroupTestcases st pts.length run).1 = groupPrefixScore st run pts.length ∧
      (runGroupTestcases st pts.length run).2.length = pts.length ∧
      (∀ j < pts.length,
        (runGroupTestcases st pts.length run).2.get? j
          = some (if jsRound (groupPrefixScore st run j) = 0 then none
                  else some (run j))) ∧
      (∀ j, jsRound (groupPrefixScore st run j) ≠ 0 →
        groupPrefixScore st run (j + 1)
          = if st = .GroupMin then min (groupPrefixScore st run j) (run j).score
            else groupPrefixScore st run j * (run j).score / 100) ∧
      (∀ j k, j ≤ k → k < pts.length → jsRound (groupPrefixScore st run j) = 0 →
        (runGroupTestcases st pts.length run).2.get? k = some none) := by
  intro st hst pts run
  have hdisp : runSubtaskTestcases st pts run = runGroupTestcases st pts.length run := by
    rcases hst with rfl | rfl <;> rfl
  have heq := runGroupTestcases_eq st run pts.length
  refine ⟨hdisp, rfl, by rw [heq], by rw [heq]; simp, ?_, ?_, ?_⟩
  · intro j hj
    rw [heq]
    simp [List.get?_map, List.getElem?_range, hj]
  · intro j hj
    show (if jsRound (groupPrefixScore st run j) = 0 then groupPrefixScore st run j
      else groupUpdate st (groupPrefixScore st run j) (run j).score) = _
    rw [if_neg hj, groupUpdate]
  · intro j k hjk hk h0
    have hk0 := groupPrefixScore_stays_zero st run h0 k hjk
    rw [heq]
    simp [List.get?_map, List.getElem?_range, hk, hk0]

/-- Witness for C3, the spec's TLE short-circuit scenario: a two-testcase
`GroupMin` subtask whose first testcase times out with score 0 skips the
second testcase. -/
theorem group_scoring_spec_witness :
    (runGroupTestcases .GroupMin 2
        (fun i => if i = 0 then ⟨"TimeLimitExceeded".data, 0⟩
                  else ⟨"Accepted".data, 100⟩)).2.get? 1
      = some none :=
  (group_scoring_spec .GroupMin (Or.inl rfl) [50, 50]
      (fun i => if i = 0 then ⟨"TimeLimitExceeded".data, 0⟩
                else ⟨"Accepted".data, 100⟩)).2.2.2.2.2.2 1 1 le_rfl (by norm_num)
    (by norm_num [groupPrefixScore, groupUpdate, jsRound])

/-! ## Topological ordering of subtasks (`getSubtaskOrder` and the
`toposort` npm dependency)

`getSubtaskOrder` (`common.ts` lines 40–48) hands `toposort.array` the node
list `[0, …, n-1]` and one edge `(dependency, i)` per declared dependency.
The `toposort` package runs a depth-first search from node `n-1` down to
node `0`, keeps the current DFS path to detect cycles (throwing
`Cyclic dependency`), refuses edges naming unknown nodes, and fills the
output from the back — a node is placed before everything reachable from
it.  The recursion depth is bounded by the path length, which the
embedding makes explicit with a fuel argument of `n + 1`; the fuel is
provably never exhausted because the path never repeats a node. -/

/-- Building a JavaScript `Set` from a list and iterating it: membership
testing with first-insertion order (`makeOutgoingEdges` of `toposort`). -/
def firstDedupAux (seen : List ℕ) : List ℕ → List ℕ
  | [] => []
  | a :: as => if a ∈ seen then firstDedupAux seen as else a :: firstDedupAux (a :: seen) as

/-- The successors of `u`: the targets of edges leaving `u`, first
occurrence of each, in edge order. -/
def outgoingEdges (edges : List (ℕ × ℕ)) (u : ℕ) : List ℕ :=
  firstDedupAux [] ((edges.filter (fun e => e.1 = u)).map Prod.snd)

theorem mem_firstDedupAux :
    ∀ (l : List ℕ) (seen : List ℕ) (x : ℕ),
      x ∈ firstDedupAux seen l ↔ x ∈ l ∧ x ∉ seen := by
  intro l
  induction l with
  | nil => simp [firstDedupAux]
  | cons a as ih =>
    intro seen x
    rw [firstDedupAux]
    by_cases ha : a ∈ seen
    · rw [if_pos ha, ih]
      constructor
      · rintro ⟨h1, h2⟩; exact ⟨List.mem_cons_of_mem a h1, h2⟩
      · rintro ⟨h1, h2⟩
        rcases List.mem_cons.mp h1 with rfl | h1
        · exact absurd ha h2
        · exact ⟨h1, h2⟩
    · rw [if_neg ha]
      constructor
      · intro hx
        rcases List.mem_cons.mp hx with rfl | hx
        · exact ⟨List.mem_cons_self _ _, ha⟩
        · obtain ⟨h1, h2⟩ := (ih _ _).mp hx
          exact ⟨List.mem_cons_of_mem a h1, fun hs => h2 (List.mem_cons_of_mem a hs)⟩
      · rintro ⟨h1, h2⟩
        rcases List.mem_cons.mp h1 with rfl | h1
        · exact List.mem_cons_self _ _
        · by_cases hxa : x = a
          · exact hxa ▸ List.mem_cons_self _ _
          · refine List.mem_cons_of_mem a ((ih _ _).mpr ⟨h1, fun hx => ?_⟩)
            rcases List.mem_cons.mp hx with h | h
            · exact hxa h
            · exact h2 h

/-- Membership in the successor list is exactly having the edge. -/
theorem mem_outgoingEdges (edges : List (ℕ × ℕ)) (u v : ℕ) :
    v ∈ outgoingEdges edges u ↔ (u, v) ∈ edges := by
  rw [outgoingEdges, mem_firstDedupAux]
  simp only [List.mem_map, List.mem_filter, List.not_mem_nil, not_false_iff, and_true]
  constructor
  · rintro ⟨⟨a, b⟩, ⟨hab, hu⟩, rfl⟩
    simp only [decide_eq_true_eq] at hu
    exact hu ▸ hab
  · intro h
    exact ⟨(u, v), ⟨h, by simp⟩, rfl⟩

/-- `visit` of the `toposort` package, fuel-indexed: reject a node already
on the DFS path (a cycle) or outside `[0, n)`; skip a visited node; else
mark it visited, recurse into its successors in reverse insertion order
(the package iterates the successor array from its back), and place the
node in front of everything placed during the recursion. -/
def visitNode (adj : ℕ → List ℕ) (n : ℕ) :
    ℕ → ℕ → List ℕ → Finset ℕ × List ℕ → Except (List Char) (Finset ℕ × List ℕ)
  | 0, _, _, _ => .error "toposort exceeded recursion depth".data
  | fuel + 1, node, preds, (visited, acc) =>
    if node ∈ preds then .error "Cyclic dependency".data
    else if n ≤ node then .error "Found unknown node".data
    else if node ∈ visited then .ok (visited, acc)
    else
      match ((adj node).reverse).foldl
          (fun (r : Except (List Char) (Finset ℕ × List ℕ)) child =>
            match r with
            | .error e => .error e
            | .ok st2 => visitNode adj n fuel child (node :: preds) st2)
          (.ok (insert node visited, acc)) with
      | .error e => .error e
      | .ok (visited2, acc2) => .ok (visited2, node :: acc2)

/-- `toposort.array([0…n-1], edges)`:  refuse unknown nodes in the edge
list, then visit every node from `n-1` down to `0`. -/
def toposortArray (n : ℕ) (edges : List (ℕ × ℕ)) : Except (List Char) (List ℕ) :=
  if edges.any (fun e => decide (n ≤ e.1) || decide (n ≤ e.2)) then
    .error "Unknown node. There is an unknown node in the supplied edges.".data
  else
    match (List.range n).reverse.foldl
        (fun (r : Except (List Char) (Finset ℕ × List ℕ)) i =>
          match r with
          | .error e => .error e
          | .ok st => if i ∈ st.1 then .ok st else visitNode (outgoingEdges edges) n (n + 1) i [] st)
        (.ok (∅, [])) with
    | .error e => .error e
    | .ok (_, acc) => .ok acc

/-- The edge list `getSubtaskOrder` builds: one edge `(dependency, i)` per
dependency of subtask `i`. -/
def subtaskEdges (j : JudgeInfoC) : List (ℕ × ℕ) :=
  j.subtasks.enum.flatMap (fun p => (p.2.dependencies.getD []).map (fun d => (d, p.1)))

/-- `getSubtaskOrder` of `common.ts`. -/
def getSubtaskOrder (j : JudgeInfoC) : Except (List Char) (List ℕ) :=
  toposortArray j.subtasks.length (subtaskEdges j)

/-- A directed cycle in a successor map: a nonempty edge path from some
node back to itself. -/
def HasCycle (adj : ℕ → List ℕ) : Prop :=
  ∃ (u : ℕ) (p : List ℕ), List.Chain (fun a b => b ∈ adj a) u (p ++ [u])

/-- Folding the DFS step over a worklist from an error stays that error. -/
theorem foldl_visit_error (adj : ℕ → List ℕ) (n fuel : ℕ) (preds : List ℕ) :
    ∀ (cs : List ℕ) (e : List Char),
      cs.foldl
        (fun (r : Except (List Char) (Finset ℕ × List ℕ)) child =>
          match r with
          | .error e => .error e
          | .ok st2 => visitNode adj n fuel child preds st2)
        (.error e) = .error e := by
  intro cs e
  induction cs with
  | nil => rfl
  | cons c cs ih => simpa using ih

/-- Soundness of one DFS visit: on success the output list only grows in
front, stays duplicate-free, in bounds and disjoint from the DFS path,
every placed node precedes all its successors, and the visited node ends
up placed. -/
theorem visitNode_sound (adj : ℕ → List ℕ) (n : ℕ)
    (hadj : ∀ u v, v ∈ adj u → v < n) :
    ∀ (fuel : ℕ) (node : ℕ) (preds : List ℕ) (visited : Finset ℕ) (acc : List ℕ)
      (visited2 : Finset ℕ) (acc2 : List ℕ),
      visitNode adj n fuel node preds (visited, acc) = .ok (visited2, acc2) →
      visited = acc.toFinset ∪ preds.toFinset →
      acc.Nodup →
      (∀ x ∈ acc, x ∉ preds) →
      (∀ x ∈ acc, x < n) →
      (∀ x ∈ acc, ∀ y ∈ adj x, [x, y].Sublist acc) →
      (∃ Δ, acc2 = Δ ++ acc) ∧
      visited2 = acc2.toFinset ∪ preds.toFinset ∧
      acc2.Nodup ∧
      (∀ x ∈ acc2, x ∉ preds) ∧
      (∀ x ∈ acc2, x < n) ∧
      (∀ x ∈ acc2, ∀ y ∈ adj x, [x, y].Sublist acc2) ∧
      node ∈ acc2 := by
  intro fuel
  induction fuel with
  | zero =>
    intro node preds visited acc v2 a2 h
    exact absurd h (by rw [visitNode]; simp)
  | succ fuel ih =>
    intro node preds visited acc v2 a2 h hvis hnd hdisj hbound hsound
    rw [visitNode] at h
    by_cases hp : node ∈ preds
    · rw [if_pos hp] at h; cases h
    rw [if_neg hp] at h
    by_cases hn : n ≤ node
    · rw [if_pos hn] at h; cases h
    rw [if_neg hn] at h
    by_cases hv : node ∈ visited
    · rw [if_pos hv] at h
      have h2 := Except.ok.inj h
      injection h2 with hveq haeq
      subst hveq
      subst haeq
      refine ⟨⟨[], rfl⟩, hvis, hnd, hdisj, hbound, hsound, ?_⟩
      have h2 : node ∈ acc.toFinset ∪ preds.toFinset := hvis ▸ hv
      rcases Finset.mem_union.mp h2 with h3 | h3
      · exact List.mem_toFinset.mp h3
      · exact absurd (List.mem_toFinset.mp h3) hp
    rw [if_neg hv] at h
    -- the recursion over the children
    have fold_spec : ∀ (cs : List ℕ) (st0 stf : Finset ℕ × List ℕ),
        cs.foldl
          (fun (r : Except (List Char) (Finset ℕ × List ℕ)) child =>
            match r with
            | .error e => .error e
            | .ok st2 => visitNode adj n fuel child (node :: preds) st2)
          (.ok st0) = .ok stf →
        st0.1 = st0.2.toFinset ∪ (node :: preds).toFinset →
        st0.2.Nodup →
        (∀ x ∈ st0.2, x ∉ node :: preds) →
        (∀ x ∈ st0.2, x < n) →
        (∀ x ∈ st0.2, ∀ y ∈ adj x, [x, y].Sublist st0.2) →
        (∃ Δ, stf.2 = Δ ++ st0.2) ∧
        stf.1 = stf.2.toFinset ∪ (node :: preds).toFinset ∧
        stf.2.Nodup ∧
        (∀ x ∈ stf.2, x ∉ node :: preds) ∧
        (∀ x ∈ stf.2, x < n) ∧
        (∀ x ∈ stf.2, ∀ y ∈ adj x, [x, y].Sublist stf.2) ∧
        (∀ c ∈ cs, c ∈ stf.2) := by
      intro cs
      induction cs with
      | nil =>
        intro st0 stf h0 h1 h2 h3 h4 h5
        obtain rfl : st0 = stf := Except.ok.inj h0
        exact ⟨⟨[], rfl⟩, h1, h2, h3, h4, h5, by simp⟩
      | cons c cs ihc =>
        intro st0 stf h0 h1 h2 h3 h4 h5
        rw [List.foldl_cons] at h0
        rcases hc : visitNode adj n fuel c (node :: preds) st0 with e | st1
        · have h0' : cs.foldl
              (fun (r : Except (List Char) (Finset ℕ × List ℕ)) child =>
                match r with
                | .error e => .error e
                | .ok st2 => visitNode adj n fuel child (node :: preds) st2)
              (visitNode adj n fuel c (node :: preds) st0) = .ok stf := h0
          rw [hc, foldl_visit_error] at h0'
          cases h0'
        · have h0' : cs.foldl
              (fun (r : Except (List Char) (Finset ℕ × List ℕ)) child =>
                match r with
                | .error e => .error e
                | .ok st2 => visitNode adj n fuel child (node :: preds) st2)
              (visitNode adj n fuel c (node :: preds) st0) = .ok stf := h0
          rw [hc] at h0'
          obtain ⟨⟨Δ1, hΔ1⟩, k1, k2, k3, k4, k5, k6⟩ :=
            ih c (node :: preds) st0.1 st0.2 st1.1 st1.2 (by rw [hc]) h1 h2 h3 h4 h5
          obtain ⟨⟨Δ2, hΔ2⟩, m1, m2, m3, m4, m5, m6⟩ :=
            ihc st1 stf h0' k1 k2 k3 k4 k5
          refine ⟨⟨Δ2 ++ Δ1, by rw [hΔ2, hΔ1, List.append_assoc]⟩, m1, m2, m3, m4, m5, ?_⟩
          -- every child of the worklist ends placed
          intro x hx
          rcases List.mem_cons.mp hx with rfl | hx2
          · rw [hΔ2]; exact List.mem_append_right _ k6
          · exact m6 x hx2
    rcases hfold : ((adj node).reverse).foldl
        (fun (r : Except (List Char) (Finset ℕ × List ℕ)) child =>
          match r with
          | .error e => .error e
          | .ok st2 => visitNode adj n fuel child (node :: preds) st2)
        (.ok (insert node visited, acc)) with e | ⟨v1, a1⟩
    · rw [hfold] at h; cases h
    rw [hfold] at h
    have h2 := Except.ok.inj h
    injection h2 with hveq haeq
    subst hveq
    subst haeq
    have hnotacc : node ∉ acc := fun hmem =>
      hv (hvis ▸ Finset.mem_union_left _ (List.mem_toFinset.mpr hmem))
    obtain ⟨⟨Δ, hΔ⟩, k1, k2, k3, k4, k5, k6⟩ :=
      fold_spec ((adj node).reverse) (insert node visited, acc) (v1, a1) hfold
        (by
          simp only [hvis, List.toFinset_cons]
          rw [Finset.union_insert])
        hnd
        (fun x hx hmem => by
          rcases List.mem_cons.mp hmem with rfl | hmem2
          · exact hnotacc hx
          · exact hdisj x hx hmem2)
        hbound hsound
    simp only at k1 k2 k3 k4 k5 k6 hΔ
    have hnode_a1 : node ∉ a1 := fun hmem => k3 node hmem (List.mem_cons_self _ _)
    refine ⟨⟨node :: Δ, by rw [hΔ, List.cons_append]⟩, ?_, ?_, ?_, ?_, ?_, ?_⟩
    · rw [k1, List.toFinset_cons, Finset.union_insert, List.toFinset_cons,
        Finset.insert_union]
    · exact List.nodup_cons.mpr ⟨hnode_a1, k2⟩
    · intro x hx
      rcases List.mem_cons.mp hx with rfl | hx2
      · exact hp
      · exact fun hmem => k3 x hx2 (List.mem_cons_of_mem _ hmem)
    · intro x hx
      rcases List.mem_cons.mp hx with rfl | hx2
      · exact Nat.lt_of_not_le hn
      · exact k4 x hx2
    · intro x hx y hy
      rcases List.mem_cons.mp hx with rfl | hx2
      · exact List.cons_sublist_cons.mpr
          (List.singleton_sublist.mpr (k6 y (List.mem_reverse.mpr hy)))
      · exact (k5 x hx2 y hy).trans (List.sublist_cons_self node a1)
    · exact List.mem_cons_self _ _

/-- The outer node loop, from an error, stays that error. -/
theorem foldl_top_error (adj : ℕ → List ℕ) (n : ℕ) :
    ∀ (ns : List ℕ) (e : List Char),
      ns.foldl
        (fun (r : Except (List Char) (Finset ℕ × List ℕ)) i =>
          match r with
          | .error e => .error e
          | .ok st => if i ∈ st.1 then .ok st else visitNode adj n (n + 1) i [] st)
        (.error e) = .error e := by
  intro ns e
  induction ns with
  | nil => rfl
  | cons c cs ih => simpa using ih

/-- Soundness of the outer node loop: all processed nodes end up placed,
and the invariants of `visitNode_sound` persist. -/
theorem toposort_top_fold_sound (adj : ℕ → List ℕ) (n : ℕ)
    (hadj : ∀ u v, v ∈ adj u → v < n) :
    ∀ (ns : List ℕ) (st0 stf : Finset ℕ × List ℕ),
      ns.foldl
        (fun (r : Except (List Char) (Finset ℕ × List ℕ)) i =>
          match r with
          | .error e => .error e
          | .ok st => if i ∈ st.1 then .ok st else visitNode adj n (n + 1) i [] st)
        (.ok st0) = .ok stf →
      st0.1 = st0.2.toFinset →
      st0.2.Nodup →
      (∀ x ∈ st0.2, x < n) →
      (∀ x ∈ st0.2, ∀ y ∈ adj x, [x, y].Sublist st0.2) →
      (∃ Δ, stf.2 = Δ ++ st0.2) ∧
      stf.1 = stf.2.toFinset ∧
      stf.2.Nodup ∧
      (∀ x ∈ stf.2, x < n) ∧
      (∀ x ∈ stf.2, ∀ y ∈ adj x, [x, y].Sublist stf.2) ∧
      (∀ i ∈ ns, i ∈ stf.2) := by
  intro ns
  induction ns with
  | nil =>
    intro st0 stf h h1 h2 h3 h4
    obtain rfl : st0 = stf := Except.ok.inj h
    exact ⟨⟨[], rfl⟩, h1, h2, h3, h4, by simp⟩
  | cons i ns ih =>
    intro st0 stf h h1 h2 h3 h4
    rw [List.foldl_cons] at h
    by_cases hi : i ∈ st0.1
    · have h' : ns.foldl
          (fun (r : Except (List Char) (Finset ℕ × List ℕ)) i =>
            match r with
            | .error e => .error e
            | .ok st => if i ∈ st.1 then .ok st else visitNode adj n (n + 1) i [] st)
          (.ok st0) = .ok stf := by
        rw [← h]
        congr 1
        simp [hi]
      obtain ⟨⟨Δ, hΔ⟩, m1, m2, m3, m4, m5⟩ := ih st0 stf h' h1 h2 h3 h4
      refine ⟨⟨Δ, hΔ⟩, m1, m2, m3, m4, ?_⟩
      intro x hx
      rcases List.mem_cons.mp hx with rfl | hx2
      · rw [hΔ]
        exact List.mem_append_right _ (List.mem_toFinset.mp (h1 ▸ hi))
      · exact m5 x hx2
    · have h' : ns.foldl
          (fun (r : Except (List Char) (Finset ℕ × List ℕ)) i =>
            match r with
            | .error e => .error e
            | .ok st => if i ∈ st.1 then .ok st else visitNode adj n (n + 1) i [] st)
          (visitNode adj n (n + 1) i [] st0) = .ok stf := by
        rw [← h]
        congr 1
        simp [hi]
      rcases hc : visitNode adj n (n + 1) i [] st0 with e | ⟨v1, a1⟩
      · rw [hc, foldl_top_error] at h'
        cases h'
      rw [hc] at h'
      obtain ⟨⟨Δ1, hΔ1⟩, k1, k2, k3, k4, k5, k6⟩ :=
        visitNode_sound adj n hadj (n + 1) i [] st0.1 st0.2 v1 a1
          (by rw [← hc]) (by simpa using h1) h2 (by simp) h3 h4
      obtain ⟨⟨Δ2, hΔ2⟩, m1, m2, m3, m4, m5⟩ := ih (v1, a1) stf h'
        (by simpa using k1) k2 k4 k5
      refine ⟨⟨Δ2 ++ Δ1, by simp only at hΔ2; rw [hΔ2, hΔ1, List.append_assoc]⟩,
        m1, m2, m3, m4, ?_⟩
      intro x hx
      rcases List.mem_cons.mp hx with rfl | hx2
      · simp only at hΔ2
        rw [hΔ2]
        exact List.mem_append_right _ k6
      · exact m5 x hx2

/-- Soundness of `toposort.array`: a successful run lists each node
exactly once, and the source of every edge comes before its target. -/
theorem toposortArray_sound (n : ℕ) (edges : List (ℕ × ℕ)) (order : List ℕ)
    (h : toposortArray n edges = .ok order) :
    order.Nodup ∧ (∀ i ∈ order, i < n) ∧ (∀ i < n, i ∈ order) ∧
    (∀ e ∈ edges, [e.1, e.2].Sublist order) := by
  rw [toposortArray] at h
  by_cases hany : edges.any (fun e => decide (n ≤ e.1) || decide (n ≤ e.2))
  · rw [if_pos hany] at h; cases h
  rw [if_neg hany] at h
  have hbound : ∀ e ∈ edges, e.1 < n ∧ e.2 < n := by
    intro e he
    have := (List.any_eq_true.not.mp hany)
    push_neg at this
    have h2 := this e he
    revert h2
    simp [-not_or]
    omega
  have hadj : ∀ u v, v ∈ outgoingEdges edges u → v < n := fun u v hv =>
    (hbound _ ((mem_outgoingEdges edges u v).mp hv)).2
  rcases hfold : (List.range n).reverse.foldl
      (fun (r : Except (List Char) (Finset ℕ × List ℕ)) i =>
        match r with
        | .error e => .error e
        | .ok st => if i ∈ st.1 then .ok st
                    else visitNode (outgoingEdges edges) n (n + 1) i [] st)
      (.ok (∅, [])) with e | ⟨vf, af⟩
  · rw [hfold] at h; cases h
  rw [hfold] at h
  obtain rfl : af = order := Except.ok.inj h
  obtain ⟨_, _, m2, m3, m4, m5⟩ :=
    toposort_top_fold_sound (outgoingEdges edges) n hadj (List.range n).reverse
      (∅, []) (vf, af) hfold (by simp) (by simp) (by simp) (by simp)
  refine ⟨m2, m3, ?_, ?_⟩
  · intro i hi
    exact m5 i (by simpa using hi)
  · intro e he
    exact m4 e.1 (m5 e.1 (by simpa using (hbound e he).1)) e.2
      ((mem_outgoingEdges edges e.1 e.2).mpr he)

/-- A node already on the DFS path closes a directed cycle. -/
theorem cycle_of_path_mem (adj : ℕ → List ℕ) (preds : List ℕ) (node : ℕ)
    (hchain : List.Chain' (fun a b => a ∈ adj b) preds)
    (hlink : ∀ p ps, preds = p :: ps → node ∈ adj p)
    (hmem : node ∈ preds) :
    HasCycle adj := by
  obtain ⟨α, β, rfl⟩ := List.append_of_mem hmem
  have hsplit : α ++ node :: β = (α ++ [node]) ++ β := by simp
  rw [hsplit] at hchain
  have hfront : List.Chain' (fun a b => a ∈ adj b) (α ++ [node]) :=
    hchain.left_of_append
  have hrev : List.Chain' (fun a b => b ∈ adj a) (node :: α.reverse) := by
    have := List.chain'_reverse.mpr hfront
    simpa using this
  refine ⟨node, α.reverse, ?_⟩
  show List.Chain' (fun a b => b ∈ adj a) (node :: (α.reverse ++ [node]))
  rw [show node :: (α.reverse ++ [node]) = (node :: α.reverse) ++ [node] from rfl]
  refine List.chain'_append.mpr ⟨hrev, List.chain'_singleton node, ?_⟩
  intro x hx y hy
  simp only [List.head?_cons, Option.mem_def, Option.some.injEq] at hy
  subst hy
  rw [show node :: α.reverse = (α ++ [node]).reverse from by simp,
    List.getLast?_reverse] at hx
  cases α with
  | nil =>
    simp only [List.nil_append, List.head?_cons, Option.mem_def, Option.some.injEq] at hx
    subst hx
    exact hlink node β rfl
  | cons a α2 =>
    simp only [List.cons_append, List.head?_cons, Option.mem_def, Option.some.injEq] at hx
    subst hx
    exact hlink a (α2 ++ node :: β) rfl

/-- Completeness of one DFS visit: with no cycle in the successor map,
fuel accounting `fuel + |path| = n + 1` and a well-formed path, the visit
cannot fail. -/
theorem visitNode_complete (adj : ℕ → List ℕ) (n : ℕ)
    (hadj : ∀ u v, v ∈ adj u → v < n)
    (hnc : ¬ HasCycle adj) :
    ∀ (fuel : ℕ) (node : ℕ) (preds : List ℕ) (st : Finset ℕ × List ℕ),
      fuel + preds.length = n + 1 →
      node < n →
      preds.Nodup →
      (∀ x ∈ preds, x < n) →
      List.Chain' (fun a b => a ∈ adj b) preds →
      (∀ p ps, preds = p :: ps → node ∈ adj p) →
      ∃ st2, visitNode adj n fuel node preds st = .ok st2 := by
  intro fuel
  induction fuel with
  | zero =>
    intro node preds st hfuel hn hnd hb hch hlink
    exfalso
    have h1 : preds.toFinset.card = preds.length := List.toFinset_card_of_nodup hnd
    have h2 : preds.toFinset ⊆ Finset.range n := fun x hx =>
      Finset.mem_range.mpr (hb x (List.mem_toFinset.mp hx))
    have h3 := Finset.card_le_card h2
    rw [h1, Finset.card_range] at h3
    omega
  | succ fuel ih =>
    intro node preds st hfuel hn hnd hb hch hlink
    obtain ⟨visited, acc⟩ := st
    rw [visitNode]
    by_cases hp : node ∈ preds
    · exact absurd (cycle_of_path_mem adj preds node hch hlink hp) hnc
    rw [if_neg hp, if_neg (not_le.mpr hn)]
    by_cases hv : node ∈ visited
    · rw [if_pos hv]
      exact ⟨(visited, acc), rfl⟩
    rw [if_neg hv]
    have fold_ok : ∀ (cs : List ℕ), (∀ c ∈ cs, c ∈ adj node) →
        ∀ (st0 : Finset ℕ × List ℕ),
          ∃ stf, cs.foldl
            (fun (r : Except (List Char) (Finset ℕ × List ℕ)) child =>
              match r with
              | .error e => .error e
              | .ok st2 => visitNode adj n fuel child (node :: preds) st2)
            (.ok st0) = .ok stf := by
      intro cs
      induction cs with
      | nil => exact fun _ st0 => ⟨st0, rfl⟩
      | cons c cs ihc =>
        intro hcs st0
        obtain ⟨st1, hst1⟩ := ih c (node :: preds) st0
          (by simp only [List.length_cons]; omega)
          (hadj node c (hcs c (List.mem_cons_self _ _)))
          (List.nodup_cons.mpr ⟨hp, hnd⟩)
          (fun x hx => by
            rcases List.mem_cons.mp hx with rfl | hx2
            · exact hn
            · exact hb x hx2)
          (by
            cases preds with
            | nil => simp
            | cons p ps => exact List.chain'_cons.mpr ⟨hlink p ps rfl, hch⟩)
          (fun p ps hpp => by
            injection hpp with h1 h2
            subst h1
            exact hcs c (List.mem_cons_self _ _))
        obtain ⟨stf, hstf⟩ := ihc (fun x hx => hcs x (List.mem_cons_of_mem _ hx)) st1
        refine ⟨stf, ?_⟩
        rw [List.foldl_cons]
        have hgoal : cs.foldl
            (fun (r : Except (List Char) (Finset ℕ × List ℕ)) child =>
              match r with
              | .error e => .error e
              | .ok st2 => visitNode adj n fuel child (node :: preds) st2)
            (visitNode adj n fuel c (node :: preds) st0) = .ok stf := by
          rw [hst1]
          exact hstf
        exact hgoal
    obtain ⟨⟨v1, a1⟩, hstf⟩ :=
      fold_ok ((adj node).reverse) (fun c hc => List.mem_reverse.mp hc)
        (insert node visited, acc)
    exact ⟨(v1, node :: a1), by rw [hstf]⟩

/-- Completeness of `toposort.array`: valid edges and an acyclic successor
map always yield an order. -/
theorem toposortArray_complete (n : ℕ) (edges : List (ℕ × ℕ))
    (hbound : ∀ e ∈ edges, e.1 < n ∧ e.2 < n)
    (hnc : ¬ HasCycle (outgoingEdges edges)) :
    ∃ order, toposortArray n edges = .ok order := by
  have hadj : ∀ u v, v ∈ outgoingEdges edges u → v < n := fun u v hv =>
    (hbound _ ((mem_outgoingEdges edges u v).mp hv)).2
  have hany : ¬ edges.any (fun e => decide (n ≤ e.1) || decide (n ≤ e.2)) = true := by
    rw [List.any_eq_true]
    push_neg
    intro e he
    have h2 := hbound e he
    show ¬ (decide (n ≤ e.1) || decide (n ≤ e.2)) = true
    simp only [Bool.or_eq_true, decide_eq_true_eq, not_or, not_le]
    omega
  rw [toposortArray, if_neg hany]
  have fold_ok : ∀ (ns : List ℕ), (∀ i ∈ ns, i < n) →
      ∀ (st0 : Finset ℕ × List ℕ),
        ∃ stf, ns.foldl
          (fun (r : Except (List Char) (Finset ℕ × List ℕ)) i =>
            match r with
            | .error e => .error e
            | .ok st => if i ∈ st.1 then .ok st
                        else visitNode (outgoingEdges edges) n (n + 1) i [] st)
          (.ok st0) = .ok stf := by
    intro ns
    induction ns with
    | nil => exact fun _ st0 => ⟨st0, rfl⟩
    | cons i ns ihn =>
      intro hns st0
      by_cases hi : i ∈ st0.1
      · obtain ⟨stf, hstf⟩ := ihn (fun x hx => hns x (List.mem_cons_of_mem _ hx)) st0
        refine ⟨stf, ?_⟩
        rw [List.foldl_cons]
        have hgoal : ns.foldl
            (fun (r : Except (List Char) (Finset ℕ × List ℕ)) i =>
              match r with
              | .error e => .error e
              | .ok st => if i ∈ st.1 then .ok st
                          else visitNode (outgoingEdges edges) n (n + 1) i [] st)
            (if i ∈ st0.1 then .ok st0
             else visitNode (outgoingEdges edges) n (n + 1) i [] st0) = .ok stf := by
          rw [if_pos hi]
          exact hstf
        exact hgoal
      · obtain ⟨st1, hst1⟩ := visitNode_complete (outgoingEdges edges) n hadj hnc
          (n + 1) i [] st0 (by simp) (hns i (List.mem_cons_self _ _)) List.nodup_nil
          (by simp) List.chain'_nil (fun p ps hpp => by cases hpp)
        obtain ⟨stf, hstf⟩ := ihn (fun x hx => hns x (List.mem_cons_of_mem _ hx)) st1
        refine ⟨stf, ?_⟩
        rw [List.foldl_cons]
        have hgoal : ns.foldl
            (fun (r : Except (List Char) (Finset ℕ × List ℕ)) i =>
              match r with
              | .error e => .error e
              | .ok st => if i ∈ st.1 then .ok st
                          else visitNode (outgoingEdges edges) n (n + 1) i [] st)
            (if i ∈ st0.1 then .ok st0
             else visitNode (outgoingEdges edges) n (n + 1) i [] st0) = .ok stf := by
          rw [if_neg hi, hst1]
          exact hstf
        exact hgoal
  obtain ⟨⟨vf, af⟩, hstf⟩ := fold_ok (List.range n).reverse (by simp) (∅, [])
  exact ⟨af, by rw [hstf]⟩

/-- In a duplicate-free list, a two-element sublist fixes the relative
order of the positions. -/
theorem indexOf_lt_of_sublist_pair :
    ∀ {l : List ℕ}, l.Nodup → ∀ {x y : ℕ}, [x, y].Sublist l →
      l.indexOf x < l.indexOf y := by
  intro l
  induction l with
  | nil => intro _ x y h; simp at h
  | cons a l ihl =>
    intro hnd x y h
    have hal : a ∉ l := (List.nodup_cons.mp hnd).1
    have hndl : l.Nodup := (List.nodup_cons.mp hnd).2
    cases h with
    | cons _ h2 =>
      have hx : x ∈ l := h2.subset (by simp)
      have hy : y ∈ l := h2.subset (by simp)
      have hxa : x ≠ a := fun hxa => hal (hxa ▸ hx)
      have hya : y ≠ a := fun hya => hal (hya ▸ hy)
      rw [List.indexOf_cons_ne _ (Ne.symm hxa), List.indexOf_cons_ne _ (Ne.symm hya)]
      exact Nat.succ_lt_succ (ihl hndl h2)
    | cons₂ _ h2 =>
      have hy : y ∈ l := List.singleton_sublist.mp h2
      have hya : y ≠ a := fun hya => hal (hya ▸ hy)
      rw [List.indexOf_cons_self, List.indexOf_cons_ne _ (Ne.symm hya)]
      exact Nat.succ_pos _
/-- A rank function strictly increasing along a relation grows along a
chain, up to its last element. -/
theorem rank_lt_of_chain {R : ℕ → ℕ → Prop} (f : ℕ → ℕ)
    (hf : ∀ a b, R a b → f a < f b) :
    ∀ (ws : List ℕ) (u : ℕ) (hne : ws ≠ []), List.Chain R u ws →
      f u < f (ws.getLast hne) := by
  intro ws
  induction ws with
  | nil => intro u hne; exact absurd rfl hne
  | cons w ws ihw =>
    intro u hne hch
    obtain ⟨h1, h2⟩ := List.chain_cons.mp hch
    cases ws with
    | nil => simpa [List.getLast] using hf u w h1
    | cons w2 ws2 =>
      have h3 := ihw w (by simp) h2
      have h4 : (w :: w2 :: ws2).getLast hne = (w2 :: ws2).getLast (by simp) :=
        List.getLast_cons _
      rw [h4]
      exact (hf u w h1).trans h3

/-- A cyclic successor map makes `toposort.array` fail: a successful
order would rank every edge strictly, which no cycle admits. -/
theorem toposortArray_cyclic_error (n : ℕ) (edges : List (ℕ × ℕ))
    (hc : HasCycle (outgoingEdges edges)) :
    ∃ e, toposortArray n edges = .error e := by
  rcases hres : toposortArray n edges with e | order
  · exact ⟨e, rfl⟩
  exfalso
  obtain ⟨hnd, _, _, hedge⟩ := toposortArray_sound n edges order hres
  obtain ⟨u, p, hchain⟩ := hc
  have hf : ∀ a b, b ∈ outgoingEdges edges a → order.indexOf a < order.indexOf b := by
    intro a b hab
    exact indexOf_lt_of_sublist_pair hnd
      (hedge (a, b) ((mem_outgoingEdges edges a b).mp hab))
  have h1 := rank_lt_of_chain (fun x => order.indexOf x) hf (p ++ [u]) u (by simp) hchain
  rw [List.getLast_append] at h1
  exact lt_irrefl _ h1

/-- An edge is in `subtaskEdges` exactly when the target subtask declares
the source as a dependency. -/
theorem mem_subtaskEdges (j : JudgeInfoC) (d i : ℕ) :
    (d, i) ∈ subtaskEdges j ↔
      ∃ s, j.subtasks.get? i = some s ∧ d ∈ s.dependencies.getD [] := by
  rw [subtaskEdges]
  constructor
  · intro h
    obtain ⟨⟨idx, s⟩, hmem, hd⟩ := List.mem_flatMap.mp h
    obtain ⟨d2, hd2, heq⟩ := List.mem_map.mp hd
    injection heq with h1 h2
    subst h1
    subst h2
    exact ⟨s, List.mk_mem_enum_iff_get?.mp hmem, hd2⟩
  · rintro ⟨s, hs, hd⟩
    exact List.mem_flatMap.mpr ⟨(i, s), List.mk_mem_enum_iff_get?.mpr hs,
      List.mem_map.mpr ⟨d, hd, rfl⟩⟩

/-- **C5.** (amended)  For a judging plan with in-range dependency indices:
if the dependency graph is acyclic, `getSubtaskOrder` succeeds and returns
each subtask index exactly once, with every subtask placed after all
subtasks it depends on; if the graph has a cycle, `getSubtaskOrder` throws
(the `toposort` call fails when the run starts — the claim's `rejected at
validation` does not hold, see the counterexample). -/
theorem subtask_order_respects_dependencies :
    ∀ j : JudgeInfoC,
      (∀ s ∈ j.subtasks, ∀ d ∈ s.dependencies.getD [], d < j.subtasks.length) →
      (¬ HasCycle (outgoingEdges (subtaskEdges j)) →
        ∃ order, getSubtaskOrder j = .ok order ∧
          order.Nodup ∧
          (∀ i ∈ order, i < j.subtasks.length) ∧
          (∀ i < j.subtasks.length, i ∈ order) ∧
          (∀ i s, j.subtasks.get? i = some s →
            ∀ d ∈ s.dependencies.getD [], [d, i].Sublist order)) ∧
      (HasCycle (outgoingEdges (subtaskEdges j)) →
        ∃ e, getSubtaskOrder j = .error e) := by
  intro j hdeps
  have hbound : ∀ e ∈ subtaskEdges j,
      e.1 < j.subtasks.length ∧ e.2 < j.subtasks.length := by
    rintro ⟨d, i⟩ he
    obtain ⟨s, hs, hd⟩ := (mem_subtaskEdges j d i).mp he
    obtain ⟨hi, hget⟩ := List.get?_eq_some.mp hs
    exact ⟨hdeps s (hget ▸ List.get_mem _ _ _) d hd, hi⟩
  constructor
  · intro hnc
    obtain ⟨order, horder⟩ :=
      toposortArray_complete j.subtasks.length (subtaskEdges j) hbound hnc
    obtain ⟨hnd, hb, hcov, hedge⟩ :=
      toposortArray_sound j.subtasks.length (subtaskEdges j) order horder
    exact ⟨order, horder, hnd, hb, hcov, fun i s hs d hd =>
      hedge (d, i) ((mem_subtaskEdges j d i).mpr ⟨s, hs, hd⟩)⟩
  · intro hc
    exact toposortArray_cyclic_error j.subtasks.length (subtaskEdges j) hc

/-- A cyclic two-subtask plan: subtask 0 depends on 1 and subtask 1
depends on 0; each subtask has one testcase naming existing files. -/
def cyclicJudgeInfo : JudgeInfoC :=
  ⟨false, none, none,
    [⟨none, none, [⟨none, none, some "in1".data, some "out1".data, none⟩], .Sum, none,
       some [1]⟩,
     ⟨none, none, [⟨none, none, some "in1".data, some "out1".data, none⟩], .Sum, none,
       some [0]⟩]⟩

/-- Witness for C5: the cyclic two-subtask plan makes the subtask
ordering fail. -/
theorem subtask_order_respects_dependencies_witness :
    ∃ e, getSubtaskOrder cyclicJudgeInfo = .error e :=
  (subtask_order_respects_dependencies cyclicJudgeInfo (by decide)).2
    ⟨0, [1], List.Chain.cons (by decide) (List.Chain.cons (by decide) List.Chain.nil)⟩

/-! ## Judge-info validation (`validateJudgeInfoSubtasks`,
`validateJudgeInfoExtraSourceFiles` of `common.ts`; `validateJudgeInfo` of
`traditional/judgeInfo.ts`)

Test data is embedded as its key set (the validator only tests key
membership). -/

/-- The `enableInputFile` / `enableOutputFile` parameter: `true`, `false`
or the string `"optional"`. -/
inductive FileEnable where
  | enabled
  | disabled
  | optionalFile
  deriving DecidableEq, Repr

/-- JavaScript falsiness of an optional filename (`undefined` or `""`). -/
def fileFalsy : Option (List Char) → Bool
  | none => true
  | some s => s.isEmpty

/-- `file in testData`: key membership; an absent filename is never a
key. -/
def keyInTestData : Option (List Char) → List (List Char) → Bool
  | none, _ => false
  | some s, td => decide (s ∈ td)

/-- How JavaScript renders an optional filename inside an error
message. -/
def fileDisplay : Option (List Char) → List Char
  | none => "undefined".data
  | some s => s

/-- `validateJudgeInfoSubtasks` of `common.ts` (lines 272–293): no empty
plans, no empty subtasks, and every referenced input/output file must be a
test-data key (subject to the enable flags). -/
def validateJudgeInfoSubtasks (j : JudgeInfoC) (testData : List (List Char))
    (enableInput enableOutput : FileEnable) : Except (List Char) Unit :=
  if j.subtasks.length = 0 ∨
      (j.subtasks.length = 1 ∧
        ((j.subtasks.get? 0).elim 0 (fun s => s.testcases.length)) = 0) then
    .error "No testcases.".data
  else
    j.subtasks.enum.forM (fun si =>
      if si.2.testcases.length = 0 then
        .error ("Subtask ".data ++ (toString (si.1 + 1)).data ++ " has no testcases.".data)
      else
        si.2.testcases.enum.forM (fun tj =>
          if enableInput ≠ .disabled ∧
              ¬ (fileFalsy tj.2.inputFile = true ∧ enableInput = .optionalFile) ∧
              ¬ keyInTestData tj.2.inputFile testData = true then
            .error ("Input file ".data ++ fileDisplay tj.2.inputFile ++
              " referenced by subtask ".data ++ (toString (si.1 + 1)).data ++
              "'s testcase ".data ++ (toString (tj.1 + 1)).data ++ " doesn't exist.".data)
          else if enableOutput ≠ .disabled ∧
              ¬ (fileFalsy tj.2.outputFile = true ∧ enableOutput = .optionalFile) ∧
              ¬ keyInTestData tj.2.outputFile testData = true then
            .error ("Output file ".data ++ fileDisplay tj.2.outputFile ++
              " referenced by subtask ".data ++ (toString (si.1 + 1)).data ++
              "'s testcase ".data ++ (toString (tj.1 + 1)).data ++ " doesn't exist.".data)
          else .ok ()))

/-- `validateJudgeInfoExtraSourceFiles` of `common.ts`: every mapped
source must be a test-data key. -/
def validateJudgeInfoExtraSourceFiles
    (extra : Option (List (List Char × List (List Char × List Char))))
    (testData : List (List Char)) : Except (List Char) Unit :=
  match extra with
  | none => .ok ()
  | some m =>
    m.forM (fun lang =>
      lang.2.forM (fun dstsrc =>
        if decide (dstsrc.2 ∈ testData) then .ok ()
        else
          .error ("Extra source file ".data ++ dstsrc.2 ++ " (mapped to ".data ++
            dstsrc.1 ++ ", for language ".data ++ lang.1 ++ ") doesn't exist.".data)))

/-- The fields of `JudgeInfoTraditional` its validator reads:
`checker = some f` stands for a custom checker with filename `f`. -/
structure JudgeInfoTrad where
  common : JudgeInfoC
  checker : Option (List Char) := none
  extraSourceFiles : Option (List (List Char × List (List Char × List Char))) := none

/-- `validateJudgeInfo` of `traditional/judgeInfo.ts` (lines 82–99):
subtask validation, custom-checker existence, extra-source-file
existence — and nothing else; dependency cycles are not examined. -/
def validateJudgeInfo (j : JudgeInfoTrad) (testData : List (List Char)) :
    Except (List Char) Unit :=
  match validateJudgeInfoSubtasks j.common testData .enabled .enabled with
  | .error e => .error e
  | .ok () =>
    match j.checker with
    | some filename =>
      if decide (filename ∈ testData) then
        validateJudgeInfoExtraSourceFiles j.extraSourceFiles testData
      else .error ("Custom checker ".data ++ filename ++ " doesn't exist.".data)
    | none => validateJudgeInfoExtraSourceFiles j.extraSourceFiles testData

/-- Counterexample for C5 as frozen: the cyclic two-subtask plan passes
`validateJudgeInfo` (so it is *not* rejected at validation) and only fails
later, when `getSubtaskOrder` runs the topological sort. -/
theorem cyclic_plan_passes_validation :
    validateJudgeInfo ⟨cyclicJudgeInfo, none, none⟩ ["in1".data, "out1".data] = .ok () ∧
    getSubtaskOrder cyclicJudgeInfo = .error "Cyclic dependency".data :=
  ⟨rfl, rfl⟩

example : toposortArray 2 [] = .ok [0, 1] := rfl

/-! ## The full scoring run (`runCommonTask`, lines 50–260 of `common.ts`)

The testcase runs are an injected oracle `run : ℕ → ℕ → TcResult`
(subtask index, testcase index); the sample runs are an oracle list.  The
`events` component records the per-subtask `testcaseFinished` event
streams in processing order (`none` is the skipped sentinel the engine
reports as `testcaseFinished(…, null)`). -/

/-- The first result whose status is not `Accepted`, if any. -/
def findFirstNonAccepted (rs : List TcResult) : Option (List Char) :=
  (rs.find? (fun r => decide (r.status ≠ "Accepted".data))).map TcResult.status

/-- The sample loop (lines 153–168): run samples in order until one is
not `Accepted`; report whether samples failed and the failing status. -/
def runSamplesPhase (sampleResults : List TcResult) : Bool × Option (List Char) :=
  sampleResults.foldl
    (fun acc r =>
      if acc.1 then acc
      else if r.status ≠ "Accepted".data then (true, some r.status)
      else acc)
    (false, none)

/-- `subtaskScores[i]`, an index possibly not yet assigned. -/
def lookupScore (scores : List (ℕ × ℚ)) (i : ℕ) : Option ℚ :=
  (scores.find? (fun p => decide (p.1 = i))).map Prod.snd

/-- The dependency-skip test (line 180):
`Array.isArray(dependencies) && dependencies.some(i => Math.round(subtaskScores[i]) === 0)`;
an unassigned score is `NaN`, which never rounds to 0. -/
def dependencyFailed (scores : List (ℕ × ℚ)) (deps : Option (List ℕ)) : Bool :=
  match deps with
  | none => false
  | some ds => ds.any (fun d => (lookupScore scores d).elim false (fun s => decide (jsRound s = 0)))

/-- The evolving state of the subtask loop. -/
structure SubtasksState where
  subtaskScores : List (ℕ × ℚ)
  totalScore : ℚ
  firstNonAcceptedStatus : Option (List Char)
  events : List (ℕ × List (Option TcResult))
  deriving Repr

/-- One iteration of the subtask loop (lines 173–249): skip the subtask
(zero score, all-null events) when samples failed or a dependency's score
rounds to 0; otherwise distribute testcase weights, run the testcases by
scoring mode, pick up the first non-`Accepted` run status, and accumulate
`subtaskScore · subtaskWeight / 100` into the total. -/
def processOneSubtask (j : JudgeInfoC) (run : ℕ → ℕ → TcResult) (samplesFailed : Bool)
    (st : SubtasksState) (subtaskIndex : ℕ) : SubtasksState :=
  let subtask := (j.subtasks.get? subtaskIndex).getD ⟨none, none, [], .Sum, none, none⟩
  if samplesFailed || dependencyFailed st.subtaskScores subtask.dependencies then
    { st with
      subtaskScores := (subtaskIndex, 0) :: st.subtaskScores,
      events := st.events ++ [(subtaskIndex, subtask.testcases.map (fun _ => none))] }
  else
    let pts := distributePoints (subtask.testcases.map TestcaseConfigC.points)
    let result := runSubtaskTestcases subtask.scoringType pts (run subtaskIndex)
    { subtaskScores := (subtaskIndex, result.1) :: st.subtaskScores,
      totalScore := st.totalScore +
        result.1 * ((subtaskFullScores j).getD subtaskIndex 0) / 100,
      firstNonAcceptedStatus :=
        match st.firstNonAcceptedStatus with
        | some s => some s
        | none => findFirstNonAccepted (result.2.filterMap id),
      events := st.events ++ [(subtaskIndex, result.2)] }

/-- The subtask loop over the topological order. -/
def processSubtasks (j : JudgeInfoC) (run : ℕ → ℕ → TcResult) (samplesFailed : Bool)
    (samplesFna : Option (List Char)) (order : List ℕ) : SubtasksState :=
  order.foldl (processOneSubtask j run samplesFailed) ⟨[], 0, samplesFna, []⟩

/-- `runCommonTask`: samples, topological order, subtask loop, then the
final score (clamped at 100 before rounding, rounded otherwise) and the
final status; an inconsistent all-accepted-but-not-100 state throws. -/
def runCommonTask (j : JudgeInfoC) (hasSamples skipSamples : Bool)
    (sampleResults : List TcResult) (run : ℕ → ℕ → TcResult) :
    Except (List Char) (List Char × ℤ) :=
  let runSamples := j.runSamples && hasSamples && !skipSamples
  let sp := if runSamples then runSamplesPhase sampleResults else (false, none)
  match getSubtaskOrder j with
  | .error e => .error e
  | .ok order =>
    let st := processSubtasks j run sp.1 sp.2 order
    let roundedScore : ℤ := if st.totalScore > 100 then 100 else jsRound st.totalScore
    match st.firstNonAcceptedStatus with
    | none =>
      if roundedScore ≠ 100 then .error "Couldn't determine submission result status".data
      else .ok ("Accepted".data, roundedScore)
    | some status => .ok (status, roundedScore)
example : toposortArray 2 [(1, 0)] = .ok [1, 0] := rfl
example : toposortArray 2 [(0, 1), (1, 0)] = .error "Cyclic dependency".data := rfl
example : toposortArray 1 [(0, 3)]
    = .error "Unknown node. There is an unknown node in the supplied edges.".data := rfl
example : toposortArray 3 [(2, 1)] = .ok [0, 2, 1] := rfl

/-- The sample loop is the first-failure search. -/
theorem runSamplesPhase_eq (rs : List TcResult) :
    runSamplesPhase rs = ((findFirstNonAccepted rs).isSome, findFirstNonAccepted rs) := by
  have stay : ∀ (l : List TcResult) (x : Option (List Char)),
      l.foldl
        (fun acc r =>
          if acc.1 then acc
          else if r.status ≠ "Accepted".data then (true, some r.status)
          else acc)
        (true, x) = (true, x) := by
    intro l x
    induction l with
    | nil => rfl
    | cons r l ih => simpa using ih
  induction rs with
  | nil => rfl
  | cons r rs ih =>
    rw [runSamplesPhase] at ih ⊢
    rw [List.foldl_cons]
    by_cases hr : r.status = "Accepted".data
    · have hstep : (if (false, (none : Option (List Char))).1 then (false, none)
          else if r.status ≠ "Accepted".data then (true, some r.status)
          else (false, none)) = (false, none) := by
        simp [hr]
      have hf : findFirstNonAccepted (r :: rs) = findFirstNonAccepted rs := by
        rw [findFirstNonAccepted, findFirstNonAccepted,
          List.find?_cons_of_neg _ (by simp [hr])]
      rw [hstep, ih, hf]
    · have hstep : (if (false, (none : Option (List Char))).1 then (false, none)
          else if r.status ≠ "Accepted".data then (true, some r.status)
          else (false, none)) = (true, some r.status) := by
        simp [hr]
      have hf : findFirstNonAccepted (r :: rs) = some r.status := by
        rw [findFirstNonAccepted, List.find?_cons_of_pos _ (by simp [hr])]
        rfl
      rw [hstep, stay, hf]
      rfl

/-- First-failure search distributes over concatenation. -/
theorem findFirstNonAccepted_append (a b : List TcResult) :
    findFirstNonAccepted (a ++ b)
      = (findFirstNonAccepted a).or (findFirstNonAccepted b) := by
  rw [findFirstNonAccepted, List.find?_append, findFirstNonAccepted, findFirstNonAccepted]
  cases List.find? (fun r => decide (r.status ≠ "Accepted".data)) a <;> simp

theorem lookupScore_cons_self (l : List (ℕ × ℚ)) (i : ℕ) (x : ℚ) :
    lookupScore ((i, x) :: l) i = some x := by
  simp [lookupScore, List.find?_cons_of_pos]

theorem lookupScore_cons_ne (l : List (ℕ × ℚ)) (i k : ℕ) (x : ℚ) (h : k ≠ i) :
    lookupScore ((i, x) :: l) k = lookupScore l k := by
  rw [lookupScore, List.find?_cons_of_neg _ (by simp [Ne.symm h]), lookupScore]

/-- The subtask loop only grows the event list, and its first
non-accepted status is the first failure over the events it appended
(after any failure it started with). -/
theorem processSubtasks_fna_events (j : JudgeInfoC) (run : ℕ → ℕ → TcResult)
    (samplesFailed : Bool) :
    ∀ (order : List ℕ) (st : SubtasksState),
      ∃ Δ,
        (order.foldl (processOneSubtask j run samplesFailed) st).events = st.events ++ Δ ∧
        (order.foldl (processOneSubtask j run samplesFailed) st).firstNonAcceptedStatus
          = (st.firstNonAcceptedStatus).or
              (findFirstNonAccepted (Δ.flatMap (fun p => p.2.filterMap id))) := by
  intro order
  induction order with
  | nil =>
    intro st
    exact ⟨[], by simp, by simp [findFirstNonAccepted]⟩
  | cons i rest ih =>
    intro st
    rw [List.foldl_cons]
    obtain ⟨Δ2, hev2, hfna2⟩ := ih (processOneSubtask j run samplesFailed st i)
    simp only [processOneSubtask] at hev2 hfna2 ⊢
    by_cases hskip : samplesFailed
        || dependencyFailed st.subtaskScores
            ((j.subtasks.get? i).getD ⟨none, none, [], .Sum, none, none⟩).dependencies
    · rw [if_pos hskip] at hev2 hfna2 ⊢
      simp only at hev2 hfna2
      refine ⟨(i, (((j.subtasks.get? i).getD
          ⟨none, none, [], .Sum, none, none⟩).testcases).map (fun _ => none)) :: Δ2,
        by rw [hev2]; simp, ?_⟩
      rw [hfna2]
      congr 1
      rw [List.flatMap_cons]
      simp [List.filterMap_map]
    · rw [if_neg hskip] at hev2 hfna2 ⊢
      simp only at hev2 hfna2
      refine ⟨(i, (runSubtaskTestcases
            ((j.subtasks.get? i).getD ⟨none, none, [], .Sum, none, none⟩).scoringType
            (distributePoints ((((j.subtasks.get? i).getD
              ⟨none, none, [], .Sum, none, none⟩).testcases).map TestcaseConfigC.points))
            (run i)).2) :: Δ2,
        by rw [hev2]; simp, ?_⟩
      rw [hfna2, List.flatMap_cons, findFirstNonAccepted_append]
      cases hst : st.firstNonAcceptedStatus <;> simp [Option.or_assoc]

/-- One subtask-loop step assigns the subtask's score at its index (the
fresh entry shadows any earlier one, as the array write does) and adds
`score · weight / 100` to the total. -/
theorem processOneSubtask_shape (j : JudgeInfoC) (run : ℕ → ℕ → TcResult)
    (samplesFailed : Bool) (st : SubtasksState) (i : ℕ) :
    ∃ v : ℚ,
      (processOneSubtask j run samplesFailed st i).subtaskScores
        = (i, v) :: st.subtaskScores ∧
      (processOneSubtask j run samplesFailed st i).totalScore
        = st.totalScore + v * ((subtaskFullScores j).getD i 0) / 100 := by
  by_cases h : samplesFailed
      || dependencyFailed st.subtaskScores
          ((j.subtasks.get? i).getD ⟨none, none, [], .Sum, none, none⟩).dependencies
  · refine ⟨0, ?_, ?_⟩
    · simp only [processOneSubtask]; rw [if_pos h]
    · simp only [processOneSubtask]; rw [if_pos h]; simp
  · refine ⟨(runSubtaskTestcases
        ((j.subtasks.get? i).getD ⟨none, none, [], .Sum, none, none⟩).scoringType
        (distributePoints ((((j.subtasks.get? i).getD
          ⟨none, none, [], .Sum, none, none⟩).testcases).map TestcaseConfigC.points))
        (run i)).1, ?_, ?_⟩ <;>
      simp only [processOneSubtask] <;> rw [if_neg h]

/-- Over a duplicate-free subtask order, the loop leaves scores at
indices outside the order unchanged, and the final total is the initial
total plus the order-sum of `finalScore(i) · weight(i) / 100`. -/
theorem processSubtasks_scores_total (j : JudgeInfoC) (run : ℕ → ℕ → TcResult)
    (samplesFailed : Bool) :
    ∀ (order : List ℕ) (st : SubtasksState), order.Nodup →
      (∀ k, k ∉ order →
        lookupScore (order.foldl (processOneSubtask j run samplesFailed) st).subtaskScores k
          = lookupScore st.subtaskScores k) ∧
      (order.foldl (processOneSubtask j run samplesFailed) st).totalScore
        = st.totalScore
          + (order.map (fun i =>
              (lookupScore
                (order.foldl (processOneSubtask j run samplesFailed) st).subtaskScores i).getD 0
                * ((subtaskFullScores j).getD i 0) / 100)).sum := by
  intro order
  induction order with
  | nil => intro st _; exact ⟨fun k _ => rfl, by simp⟩
  | cons i rest ih =>
    intro st hnd
    have hi : i ∉ rest := (List.nodup_cons.mp hnd).1
    have hndr : rest.Nodup := (List.nodup_cons.mp hnd).2
    obtain ⟨v, hsc, htot⟩ := processOneSubtask_shape j run samplesFailed st i
    obtain ⟨hkeep, hsum⟩ := ih (processOneSubtask j run samplesFailed st i) hndr
    rw [List.foldl_cons]
    constructor
    · intro k hk
      have hk1 : k ∉ rest := fun h => hk (List.mem_cons_of_mem _ h)
      have hk2 : k ≠ i := fun h => hk (h ▸ List.mem_cons_self i rest)
      rw [hkeep k hk1, hsc, lookupScore_cons_ne _ _ _ _ hk2]
    · have hvi : lookupScore
          (rest.foldl (processOneSubtask j run samplesFailed)
            (processOneSubtask j run samplesFailed st i)).subtaskScores i = some v := by
        rw [hkeep i hi, hsc, lookupScore_cons_self]
      rw [hsum, htot, List.map_cons, List.sum_cons, hvi]
      simp [add_assoc]

/-- The final clamp-then-round (`totalScore > 100 ? 100 : Math.round(totalScore)`)
is `min 100 (jsRound totalScore)`. -/
theorem clamp_round_eq_min (t : ℚ) :
    (if t > 100 then (100 : ℤ) else jsRound t) = min 100 (jsRound t) := by
  by_cases h : t > 100
  · rw [if_pos h]
    have h100 : (100 : ℤ) ≤ jsRound t := by
      rw [jsRound, Int.le_floor]
      push_cast
      linarith
    omega
  · rw [if_neg h]
    have h100 : jsRound t ≤ 100 := by
      rw [jsRound, Int.floor_le_iff]
      push_cast
      linarith
    omega

/-- **C1.** For every submission whose judging plan admits a topological
subtask order, the scoring engine's result is determined as claimed: the
final score is the sum over all subtasks of
`subtaskScore · subtaskWeight / 100`, rounded (`Math.round`) and clamped
to 100; the final status is the first non-`Accepted` status among the
observed (actually run) testcase results — samples first, then the
subtasks in processing order, testcases in declaration order within each
subtask; if no non-`Accepted` status was observed and the rounded score
is not 100, the engine throws the internal error
"Couldn't determine submission result status"; otherwise the status is
`Accepted`. -/
theorem runCommonTask_final_score_status (j : JudgeInfoC) (hasSamples skipSamples : Bool)
    (sampleResults : List TcResult) (run : ℕ → ℕ → TcResult)
    (order : List ℕ) (horder : getSubtaskOrder j = .ok order) :
    runCommonTask j hasSamples skipSamples sampleResults run =
      (let doSamples := j.runSamples && hasSamples && !skipSamples
       let st := processSubtasks j run
           (if doSamples then (findFirstNonAccepted sampleResults).isSome else false)
           (if doSamples then findFirstNonAccepted sampleResults else none) order
       let observed := (if doSamples then sampleResults else [])
           ++ st.events.flatMap (fun p => p.2.filterMap id)
       let score := min 100 (jsRound (∑ i ∈ Finset.range j.subtasks.length,
           (lookupScore st.subtaskScores i).getD 0 * ((subtaskFullScores j).getD i 0) / 100))
       match findFirstNonAccepted observed with
       | some s => .ok (s, score)
       | none =>
         if score = 100 then .ok ("Accepted".data, score)
         else .error "Couldn't determine submission result status".data) := by
  obtain ⟨hnd, hlt, hcov, -⟩ := toposortArray_sound _ _ _ horder
  have hsp : (if (j.runSamples && hasSamples && !skipSamples) = true
        then runSamplesPhase sampleResults else ((false : Bool), (none : Option (List Char))))
      = (if (j.runSamples && hasSamples && !skipSamples) = true
          then (findFirstNonAccepted sampleResults).isSome else false,
        if (j.runSamples && hasSamples && !skipSamples) = true
          then findFirstNonAccepted sampleResults else none) := by
    by_cases hd : (j.runSamples && hasSamples && !skipSamples) = true <;>
      simp [hd, runSamplesPhase_eq]
  obtain ⟨Δ, hev, hfna⟩ :=
    processSubtasks_fna_events j run
      (if (j.runSamples && hasSamples && !skipSamples) = true
        then (findFirstNonAccepted sampleResults).isSome else false)
      order
      ⟨[], 0,
        (if (j.runSamples && hasSamples && !skipSamples) = true
          then findFirstNonAccepted sampleResults else none), []⟩
  obtain ⟨-, htot⟩ :=
    processSubtasks_scores_total j run
      (if (j.runSamples && hasSamples && !skipSamples) = true
        then (findFirstNonAccepted sampleResults).isSome else false)
      order
      ⟨[], 0,
        (if (j.runSamples && hasSamples && !skipSamples) = true
          then findFirstNonAccepted sampleResults else none), []⟩ hnd
  set sf : Bool :=
    if (j.runSamples && hasSamples && !skipSamples) = true
      then (findFirstNonAccepted sampleResults).isSome else false with hsf
  set fna0 : Option (List Char) :=
    if (j.runSamples && hasSamples && !skipSamples) = true
      then findFirstNonAccepted sampleResults else none with hfna0
  have hΔ : (processSubtasks j run sf fna0 order).events = Δ := by
    rw [processSubtasks, hev]; rfl
  have hfna2 : (processSubtasks j run sf fna0 order).firstNonAcceptedStatus
      = findFirstNonAccepted ((if (j.runSamples && hasSamples && !skipSamples) = true
            then sampleResults else [])
          ++ (processSubtasks j run sf fna0 order).events.flatMap
              (fun p => p.2.filterMap id)) := by
    rw [findFirstNonAccepted_append, hΔ, processSubtasks, hfna]
    by_cases hd : (j.runSamples && hasSamples && !skipSamples) = true <;>
      simp [hd, hfna0, findFirstNonAccepted]
  have htf : order.toFinset = Finset.range j.subtasks.length := by
    apply Finset.ext
    intro k
    rw [List.mem_toFinset, Finset.mem_range]
    exact ⟨hlt k, hcov k⟩
  have htot2 : (processSubtasks j run sf fna0 order).totalScore
      = ∑ i ∈ Finset.range j.subtasks.length,
        (lookupScore (processSubtasks j run sf fna0 order).subtaskScores i).getD 0
          * ((subtaskFullScores j).getD i 0) / 100 := by
    rw [← htf, List.sum_toFinset _ hnd, processSubtasks, htot]
    simp [processSubtasks]
  have hclamp : (if (processSubtasks j run sf fna0 order).totalScore > 100 then (100 : ℤ)
        else jsRound (processSubtasks j run sf fna0 order).totalScore)
      = min 100 (jsRound (∑ i ∈ Finset.range j.subtasks.length,
          (lookupScore (processSubtasks j run sf fna0 order).subtaskScores i).getD 0
            * ((subtaskFullScores j).getD i 0) / 100)) := by
    rw [clamp_round_eq_min, htot2]
  rw [runCommonTask]
  simp only [horder, hsp]
  simp only [← hsf, ← hfna0]
  rw [hfna2, hclamp]
  cases findFirstNonAccepted ((if (j.runSamples && hasSamples && !skipSamples) = true
        then sampleResults else [])
      ++ (processSubtasks j run sf fna0 order).events.flatMap
          (fun p => p.2.filterMap id)) with
  | none =>
    by_cases hs : min 100 (jsRound (∑ i ∈ Finset.range j.subtasks.length,
        (lookupScore (processSubtasks j run sf fna0 order).subtaskScores i).getD 0
          * ((subtaskFullScores j).getD i 0) / 100)) = 100
    · rw [if_neg (not_not_intro hs), if_pos hs]
    · rw [if_pos hs, if_neg hs]
  | some s => rfl

/-- Witness for the C1 theorem: a plan with a single Sum subtask holding
one unweighted testcase, whose run is accepted with score 100, yields the
final result `Accepted` with score 100. -/
theorem runCommonTask_final_score_status_witness :
    runCommonTask
        ⟨false, none, none, [⟨none, none, [⟨none, none, none, none, none⟩], .Sum, none, none⟩]⟩
        false false [] (fun _ _ => ⟨"Accepted".data, 100⟩)
      = .ok ("Accepted".data, 100) := by
  have h := runCommonTask_final_score_status
      ⟨false, none, none, [⟨none, none, [⟨none, none, none, none, none⟩], .Sum, none, none⟩]⟩
      false false [] (fun _ _ => ⟨"Accepted".data, 100⟩) [0] rfl
  rw [h]
  norm_num [processSubtasks, processOneSubtask, dependencyFailed, distributePoints,
    countUnspecifiedPoints, sumSpecifiedPoints, defaultPercentagePoints,
    runSubtaskTestcases, runSumTestcases, subtaskFullScores, findFirstNonAccepted,
    lookupScore, jsRound, List.range_succ, List.range_zero, Finset.sum_range_one,
    List.find?]

end Judge
